import Mathlib

/-! Shallow embedding of `diffusion_1d` (src/diffusion.c).

The C routine works on `float` arrays.  The embedding replaces `float` by an arbitrary
field `α` (exact arithmetic; the theorems are stated over `ℝ` or over every field), and
keeps the control flow of the source:

* every `for` loop is a loop combinator over an explicit state (`forUpM`, `forUp`, `forDown`);
* every array is a map `Nat → α` written with `Function.update`; the contents a
  variable-length array has before its first write are the parameter `stack`;
* every `/` of the source is `fdiv`, which is undefined (`none`) on a zero divisor, so a
  run that divides by zero has no result;
* `cos` and `atan` of `<math.h>` are parameters; over `ℝ` they are `Real.cos`, `Real.arctan`;
* indices are natural numbers: an index is below the length of a stack array, far inside
  the range of `size_t` and `int`.  For `num_grid_points = 0` the source computes
  `num_grid_points-1` modulo `2^64` and writes outside its arrays; that input is outside the
  model, and the statements about the grid, the bands and the solve assume `2 ≤ N`.
-/

namespace Diffusion

section Model

variable {α : Type} [Field α] [DecidableEq α]

/-- The division of the source: no value when the divisor is zero. -/
def fdiv (x y : α) : Option α :=
  if y = 0 then none else some (x / y)

/-- The loop `for (i = lo; i < lo + cnt; i++) s = body i s`, the body being fallible. -/
def forUpM {σ : Type} (body : Nat → σ → Option σ) : Nat → Nat → σ → Option σ
  | _, 0, s => some s
  | lo, cnt + 1, s => (body lo s).bind (forUpM body (lo + 1) cnt)

/-- The loop `for (i = lo; i < lo + cnt; i++) s = body i s` with a total body. -/
def forUp {σ : Type} (body : Nat → σ → σ) : Nat → Nat → σ → σ
  | _, 0, s => s
  | lo, cnt + 1, s => forUp body (lo + 1) cnt (body lo s)

/-- The loop `for (int i = n; i-- > 0;) s = body i s`: the body runs at `n-1, ..., 0`. -/
def forDown {σ : Type} (body : Nat → σ → σ) : Nat → σ → σ
  | 0, s => s
  | n + 1, s => forDown body n (body n s)

/-- `#define PI 4.0*atan(1.0)` (line 7); every use of the macro is a factor of a product. -/
def PI (atan : α → α) : α := 4 * atan 1

/-- `float domain_length = 1.0;` (line 21). -/
def domain_length : α := 1

/-- `float u_0 = 0.0;` (line 22). -/
def u_0 : α := 0

/-- `float u_1 = 0.0;` (line 23). -/
def u_1 : α := 0

/-- `float f = -10.0;` (line 24). -/
def f : α := -10

/-- `float sigma = 1.0;` (line 25). -/
def sigma : α := 1

/-- Lines 30-39: the grid loop; `grid_spacing` is recomputed in every iteration. -/
def x_points (N : Nat) (mem : Nat → α) : Option (Nat → α) :=
  forUpM (fun i x =>
    (fdiv domain_length (((N - 1 : Nat) : α))).bind fun grid_spacing =>
      some (Function.update x i ((i : α) * grid_spacing))) 0 N mem

/-- Lines 44-50: the forcing loop. -/
def f_terms (N : Nat) (mem : Nat → α) : Nat → α :=
  forUp (fun i ft => Function.update ft i f) 0 N mem

/-- Line 61: one pass of the inner loop, `k_coefficients[i] += sigma*(...)`. -/
def k_term (cos atan : α → α) (xi : Nat → α) (x : Nat → α) (i k : Nat)
    (kc : Nat → α) : Option (Nat → α) :=
  (fdiv 1 (((k : α) + 1) * ((k : α) + 1) * PI atan * PI atan)).bind fun w =>
    some (Function.update kc i
      (kc i + sigma * (w * cos (2 * PI atan * ((k : α) + 1) * x i) * xi k)))

/-- Lines 55-66: the diffusivity loop with its inner accumulation loop. -/
def k_coefficients (cos atan : α → α) (N nu : Nat) (xi : Nat → α) (x : Nat → α)
    (mem : Nat → α) : Option (Nat → α) :=
  forUpM (fun i kc => forUpM (k_term cos atan xi x i) 0 nu (Function.update kc i 1)) 0 N mem

/-- The four arrays `a`, `b`, `c`, `d` of lines 70-73. -/
structure Bands (α : Type) where
  a : Nat → α
  b : Nat → α
  c : Nat → α
  d : Nat → α

/-- Lines 76-82: the body of the interior assembly loop. -/
def assemble_row (x ft k : Nat → α) (i : Nat) (s : Bands α) : Option (Bands α) :=
  (fdiv (0.5 * (k i + k (i - 1))) (x i - x (i - 1))).bind fun ai =>
  (fdiv ((-1) * 0.5 * (k (i + 1) + k i)) (x (i + 1) - x i)).bind fun bl =>
  (fdiv ((-1) * 0.5 * (k i + k (i - 1))) (x i - x (i - 1))).bind fun br =>
  (fdiv (0.5 * (k (i + 1) + k i)) (x (i + 1) - x i)).bind fun ci =>
    some { a := Function.update s.a i ai
           b := Function.update s.b i (bl + br)
           c := Function.update s.c i ci
           d := Function.update s.d i (ft i * 0.5 * (x (i + 1) - x (i - 1))) }

/-- Lines 86-87: the two boundary rows, row `0` first and row `N-1` second. -/
def set_boundary (N : Nat) (s : Bands α) : Bands α :=
  let s0 : Bands α :=
    { a := Function.update s.a 0 0
      b := Function.update s.b 0 1
      c := Function.update s.c 0 0
      d := Function.update s.d 0 u_0 }
  { a := Function.update s0.a (N - 1) 0
    b := Function.update s0.b (N - 1) 1
    c := Function.update s0.c (N - 1) 0
    d := Function.update s0.d (N - 1) u_1 }

/-- Lines 74-87: `for (i = 1; i < N-1; i++)` over the interior rows, then the boundary rows. -/
def assemble (N : Nat) (x ft k : Nat → α) (s : Bands α) : Option (Bands α) :=
  (forUpM (assemble_row x ft k) 1 (N - 1 - 1) s).map (set_boundary N)

/-- Lines 91-92: row `0` is normalised. -/
def tdma_first (s : Bands α) : Option (Bands α) :=
  (fdiv (s.c 0) (s.b 0)).bind fun c0 =>
  (fdiv (s.d 0) (s.b 0)).bind fun d0 =>
    some { s with c := Function.update s.c 0 c0, d := Function.update s.d 0 d0 }

/-- Lines 96-97: the body of the forward sweep; `c[i]` is overwritten before `d[i]`. -/
def tdma_row (i : Nat) (s : Bands α) : Option (Bands α) :=
  (fdiv (s.c i) (s.b i - s.a i * s.c (i - 1))).bind fun ci =>
  let s1 : Bands α := { s with c := Function.update s.c i ci }
  (fdiv (s1.d i - s1.a i * s1.d (i - 1)) (s1.b i - s1.a i * s1.c (i - 1))).bind fun di =>
    some { s1 with d := Function.update s1.d i di }

/-- Line 101: the last row. -/
def tdma_last (n : Nat) (s : Bands α) : Option (Bands α) :=
  (fdiv (s.d n - s.a n * s.d (n - 1)) (s.b n - s.a n * s.c (n - 1))).bind fun dn =>
    some { s with d := Function.update s.d n dn }

/-- Line 105: the body of the back substitution, `d[i] -= c[i]*d[i+1]`. -/
def tdma_back (c : Nat → α) (i : Nat) (d : Nat → α) : Nat → α :=
  Function.update d i (d i - c i * d (i + 1))

/-- Lines 90-107: the tridiagonal solve; the result is the final content of `d`. -/
def tdma (N : Nat) (s : Bands α) : Option (Nat → α) :=
  let n := N - 1
  (tdma_first s).bind fun s1 =>
  (forUpM tdma_row 1 (n - 1) s1).bind fun s2 =>
  (tdma_last n s2).bind fun s3 =>
    some (forDown (tdma_back s3.c) n s3.d)

/-- Lines 28-87: the bands and right-hand side as they stand before the solve. -/
def system (cos atan : α → α) (stack : Nat → Nat → α) (N nu : Nat) (xi : Nat → α) :
    Option (Bands α) :=
  (x_points N (stack 0)).bind fun x =>
  (k_coefficients cos atan N nu xi x (stack 2)).bind fun k =>
    assemble N x (f_terms N (stack 1)) k
      { a := stack 3, b := stack 4, c := stack 5, d := stack 6 }

/-- Lines 28-107: the array `d` after the back substitution. -/
def solution (cos atan : α → α) (stack : Nat → Nat → α) (N nu : Nat) (xi : Nat → α) :
    Option (Nat → α) :=
  (system cos atan stack N nu xi).bind (tdma N)

/-- The function `diffusion_1d` (lines 18-112): `return d[num_grid_points/2];`. -/
def diffusion_1d (cos atan : α → α) (stack : Nat → Nat → α) (N nu : Nat) (xi : Nat → α) :
    Option α :=
  (solution cos atan stack N nu xi).map fun d => d (N / 2)

end Model

/-! ## The swept coefficients, as recurrences

`cp s i` and `dp s i` are the values the forward sweep leaves in `c[i]` and `d[i]`
(`c'` and `d'` of the textbook Thomas algorithm), written as recurrences on the row index.
They are used to state the conditions on the elimination denominators. -/

section Recurrences

variable {α : Type} [Field α]

/-- The swept super-diagonal `c'`: `c'[0] = c[0]/b[0]`, `c'[i] = c[i]/(b[i] - a[i]*c'[i-1])`. -/
def cp (s : Bands α) : Nat → α
  | 0 => s.c 0 / s.b 0
  | i + 1 => s.c (i + 1) / (s.b (i + 1) - s.a (i + 1) * cp s i)

/-- The swept right-hand side `d'`: `d'[0] = d[0]/b[0]`,
`d'[i] = (d[i] - a[i]*d'[i-1])/(b[i] - a[i]*c'[i-1])`. -/
def dp (s : Bands α) : Nat → α
  | 0 => s.d 0 / s.b 0
  | i + 1 => (s.d (i + 1) - s.a (i + 1) * dp s i) / (s.b (i + 1) - s.a (i + 1) * cp s i)

/-- The elimination denominator of row `i >= 1`: `b[i] - a[i]*c'[i-1]`. -/
def pivot (s : Bands α) (i : Nat) : α :=
  s.b i - s.a i * cp s (i - 1)

/-- The divisor `N - 1` of the grid spacing is non-zero on a grid of at least two points. -/
theorem cast_pred_ne_zero [CharZero α] (N : Nat) (hN : 2 ≤ N) : ((N - 1 : Nat) : α) ≠ 0 := by
  have : N - 1 ≠ 0 := by omega
  exact_mod_cast this

end Recurrences

/-! ## Loop rules -/

section Loops

variable {σ : Type}

theorem forUpM_inv (body : Nat → σ → Option σ) (P : Nat → σ → Prop) :
    ∀ (cnt lo : Nat) (s : σ), P lo s →
      (∀ i t, lo ≤ i → i < lo + cnt → P i t → ∃ t', body i t = some t' ∧ P (i + 1) t') →
      ∃ s', forUpM body lo cnt s = some s' ∧ P (lo + cnt) s'
  | 0, lo, s, h0, _ => ⟨s, rfl, by simpa using h0⟩
  | cnt + 1, lo, s, h0, hstep => by
    obtain ⟨t, ht, hP⟩ := hstep lo s (le_refl _) (by omega) h0
    obtain ⟨s', hs', hP'⟩ := forUpM_inv body P cnt (lo + 1) t hP
      (fun i t hi hlt => hstep i t (by omega) (by omega))
    refine ⟨s', by simp [forUpM, ht, hs'], ?_⟩
    rwa [show lo + (cnt + 1) = lo + 1 + cnt by omega]

theorem forUp_inv (body : Nat → σ → σ) (P : Nat → σ → Prop) :
    ∀ (cnt lo : Nat) (s : σ), P lo s →
      (∀ i t, lo ≤ i → i < lo + cnt → P i t → P (i + 1) (body i t)) →
      P (lo + cnt) (forUp body lo cnt s)
  | 0, lo, s, h0, _ => by simpa [forUp] using h0
  | cnt + 1, lo, s, h0, hstep => by
    have hP := hstep lo s (le_refl _) (by omega) h0
    have := forUp_inv body P cnt (lo + 1) (body lo s) hP
      (fun i t hi hlt => hstep i t (by omega) (by omega))
    rw [show lo + (cnt + 1) = lo + 1 + cnt by omega]
    simpa [forUp] using this

theorem forDown_inv (body : Nat → σ → σ) (P : Nat → σ → Prop) :
    ∀ (n : Nat) (s : σ), P n s →
      (∀ i t, i < n → P (i + 1) t → P i (body i t)) →
      P 0 (forDown body n s)
  | 0, s, h0, _ => by simpa [forDown] using h0
  | n + 1, s, h0, hstep => by
    have hP := hstep n s (by omega) h0
    have := forDown_inv body P n (body n s) hP (fun i t hi => hstep i t (by omega))
    simpa [forDown] using this

theorem forUpM_zero (body : Nat → σ → Option σ) (lo : Nat) (s : σ) :
    forUpM body lo 0 s = some s := rfl

end Loops

section Solve

variable {α : Type} [Field α] [DecidableEq α]

theorem fdiv_of_ne (x : α) {y : α} (h : y ≠ 0) : fdiv x y = some (x / y) := by
  simp [fdiv, h]

theorem fdiv_zero (x : α) : fdiv x 0 = none := by
  simp [fdiv]

theorem tdma_row_of_ne (i : Nat) (s : Bands α) (hi : 1 ≤ i)
    (h : s.b i - s.a i * s.c (i - 1) ≠ 0) :
    tdma_row i s = some
      { s with c := Function.update s.c i (s.c i / (s.b i - s.a i * s.c (i - 1))),
               d := Function.update s.d i
                 ((s.d i - s.a i * s.d (i - 1)) / (s.b i - s.a i * s.c (i - 1))) } := by
  have hne : i - 1 ≠ i := by omega
  simp [tdma_row, fdiv_of_ne _ h, Function.update_noteq hne]

theorem tdma_last_of_ne (n : Nat) (s : Bands α)
    (h : s.b n - s.a n * s.c (n - 1) ≠ 0) :
    tdma_last n s = some
      { s with d := Function.update s.d n
                 ((s.d n - s.a n * s.d (n - 1)) / (s.b n - s.a n * s.c (n - 1))) } := by
  simp [tdma_last, fdiv_of_ne _ h]

/-- The solve succeeds when no elimination denominator vanishes, and its result obeys the
back-substitution recurrence over the swept coefficients. -/
theorem tdma_spec (N : Nat) (s : Bands α) (hN : 2 ≤ N) (hb : s.b 0 ≠ 0)
    (hp : ∀ i, 1 ≤ i → i ≤ N - 1 → pivot s i ≠ 0) :
    ∃ u, tdma N s = some u ∧ u (N - 1) = dp s (N - 1) ∧
      (∀ j, j < N - 1 → u j = dp s j - cp s j * u (j + 1)) ∧
      (∀ j, N - 1 < j → u j = s.d j) := by
  obtain ⟨n, rfl⟩ : ∃ n, N = n + 2 := ⟨N - 2, by omega⟩
  simp only [Nat.add_sub_cancel, show n + 2 - 1 = n + 1 by omega] at hp ⊢
  -- row 0
  have h1 : tdma_first s = some
      { s with c := Function.update s.c 0 (s.c 0 / s.b 0),
               d := Function.update s.d 0 (s.d 0 / s.b 0) } := by
    simp [tdma_first, fdiv_of_ne _ hb]
  -- forward sweep
  obtain ⟨s2, hs2, ha, hb2, hlo, hhi⟩ := forUpM_inv tdma_row
    (fun i t => t.a = s.a ∧ t.b = s.b ∧ (∀ j, j < i → t.c j = cp s j ∧ t.d j = dp s j) ∧
      (∀ j, i ≤ j → t.c j = s.c j ∧ t.d j = s.d j)) n 1
    { s with c := Function.update s.c 0 (s.c 0 / s.b 0),
             d := Function.update s.d 0 (s.d 0 / s.b 0) }
    (by
      refine ⟨rfl, rfl, ?_, ?_⟩
      · intro j hj
        obtain rfl : j = 0 := by omega
        simp [cp, dp]
      · intro j hj
        have : j ≠ 0 := by omega
        simp [Function.update_noteq this])
    (by
      intro i t hi hlt ⟨ha, hb', hlo, hhi⟩
      obtain ⟨m, rfl⟩ : ∃ m, i = m + 1 := ⟨i - 1, by omega⟩
      have hpm := hp (m + 1) (by omega) (by omega)
      simp only [pivot, Nat.add_sub_cancel] at hpm
      have hden : t.b (m + 1) - t.a (m + 1) * t.c m ≠ 0 := by
        rw [ha, hb', (hlo m (by omega)).1]; exact hpm
      refine ⟨_, tdma_row_of_ne (m + 1) t (by omega) hden, ha, hb', ?_, ?_⟩
      · intro j hj
        by_cases hjm : j = m + 1
        · subst hjm
          simp [cp, dp, ha, hb', (hlo m (by omega)).1, (hlo m (by omega)).2,
            (hhi (m + 1) (le_refl _)).1, (hhi (m + 1) (le_refl _)).2]
        · simpa [Function.update_noteq hjm] using hlo j (by omega)
      · intro j hj
        have hjm : j ≠ m + 1 := by omega
        simpa [Function.update_noteq hjm] using hhi j (by omega))
  -- last row
  have hpn := hp (n + 1) (by omega) (le_refl _)
  simp only [pivot, Nat.add_sub_cancel] at hpn
  have hden : s2.b (n + 1) - s2.a (n + 1) * s2.c n ≠ 0 := by
    rw [ha, hb2, (hlo n (by omega)).1]; exact hpn
  have h3 : tdma_last (n + 1) s2 = some
      { s2 with d := Function.update s2.d (n + 1) (dp s (n + 1)) } := by
    rw [tdma_last_of_ne (n + 1) s2 hden]
    simp [dp, ha, hb2, (hlo n (by omega)).1, (hlo n (by omega)).2,
      (hhi (n + 1) (by omega)).2]
  -- back substitution
  have hback := forDown_inv (tdma_back s2.c)
    (fun i d => d (n + 1) = dp s (n + 1) ∧
      (∀ j, i ≤ j → j < n + 1 → d j = dp s j - cp s j * d (j + 1)) ∧
      (∀ j, j < i → d j = dp s j) ∧ (∀ j, n + 1 < j → d j = s.d j))
    (n + 1) (Function.update s2.d (n + 1) (dp s (n + 1)))
    (by
      refine ⟨by simp, ?_, ?_, ?_⟩
      · intro j h1 h2; omega
      · intro j hj
        have : j ≠ n + 1 := by omega
        simpa [Function.update_noteq this] using (hlo j (by omega)).2
      · intro j hj
        have : j ≠ n + 1 := by omega
        simpa [Function.update_noteq this] using (hhi j (by omega)).2)
    (by
      intro i d hi ⟨hn, hrec, hlow, hup⟩
      have hin : n + 1 ≠ i := by omega
      refine ⟨by simp [tdma_back, Function.update_noteq hin, hn], ?_, ?_, ?_⟩
      · intro j h1 h2
        by_cases hji : j = i
        · subst hji
          have : j + 1 ≠ j := by omega
          simp [tdma_back, Function.update_noteq this, hlow j (by omega),
            (hlo j (by omega)).1]
        · have h4 : j + 1 ≠ i := by omega
          simpa [tdma_back, Function.update_noteq hji, Function.update_noteq h4]
            using hrec j (by omega) h2
      · intro j hj
        have : j ≠ i := by omega
        simpa [tdma_back, Function.update_noteq this] using hlow j (by omega)
      · intro j hj
        have : j ≠ i := by omega
        simpa [tdma_back, Function.update_noteq this] using hup j hj)
  refine ⟨_, by simp [tdma, h1, hs2, h3], hback.1, fun j hj => hback.2.1 j (by omega) hj,
    hback.2.2.2⟩

end Solve

section Stages

variable {α : Type} [Field α] [DecidableEq α]

/-- The value lines 58-63 leave in `k_coefficients[i]` when `x_points[i] = xv`: the base
value `1.0` plus the `nu` terms of the cosine expansion. -/
def k_sum (cos atan : α → α) (nu : Nat) (xi : Nat → α) (xv : α) : α :=
  1 + ∑ k in Finset.range nu,
    sigma * (1 / (((k : α) + 1) * ((k : α) + 1) * PI atan * PI atan) *
      cos (2 * PI atan * ((k : α) + 1) * xv) * xi k)

theorem x_points_spec (N : Nat) (mem : Nat → α) (h : ((N - 1 : Nat) : α) ≠ 0) :
    ∃ x, x_points N mem = some x ∧
      (∀ i, i < N → x i = (i : α) * (domain_length / ((N - 1 : Nat) : α))) ∧
      (∀ i, N ≤ i → x i = mem i) := by
  have := forUpM_inv (fun i x =>
    (fdiv domain_length (((N - 1 : Nat) : α))).bind fun grid_spacing =>
      some (Function.update x i ((i : α) * grid_spacing)))
    (fun i x => (∀ j, j < i → x j = (j : α) * (domain_length / ((N - 1 : Nat) : α))) ∧
      (∀ j, i ≤ j → x j = mem j)) N 0 mem
    ⟨fun j hj => by omega, fun j _ => rfl⟩
    (by
      intro i t _ _ ⟨hlo, hhi⟩
      refine ⟨Function.update t i ((i : α) * (domain_length / ((N - 1 : Nat) : α))),
        by simp [fdiv_of_ne _ h], ?_, ?_⟩
      · intro j hj
        by_cases hji : j = i
        · subst hji; simp
        · simpa [Function.update_noteq hji] using hlo j (by omega)
      · intro j hj
        have hji : j ≠ i := by omega
        simpa [Function.update_noteq hji] using hhi j (by omega))
  simpa [x_points] using this

theorem f_terms_spec (N : Nat) (mem : Nat → α) :
    (∀ i, i < N → f_terms N mem i = f) ∧ (∀ i, N ≤ i → f_terms N mem i = mem i) := by
  have := forUp_inv (fun i ft => Function.update ft i (f : α))
    (fun i ft => (∀ j, j < i → ft j = f) ∧ (∀ j, i ≤ j → ft j = mem j)) N 0 mem
    ⟨fun j hj => by omega, fun j _ => rfl⟩
    (by
      intro i t _ _ ⟨hlo, hhi⟩
      refine ⟨?_, ?_⟩
      · intro j hj
        by_cases hji : j = i
        · subst hji; simp
        · simpa [Function.update_noteq hji] using hlo j (by omega)
      · intro j hj
        have hji : j ≠ i := by omega
        simpa [Function.update_noteq hji] using hhi j (by omega))
  simpa [f_terms] using this

/-- The inner loop of line 59 adds the `nu` terms to `k_coefficients[i]` and touches no
other entry; its divisors are non-zero as soon as `PI` is. -/
theorem k_inner_spec [CharZero α] (cos atan : α → α) (nu : Nat) (xi x : Nat → α) (i : Nat)
    (kc : Nat → α) (hpi : nu = 0 ∨ PI atan ≠ 0) :
    ∃ kc', forUpM (k_term cos atan xi x i) 0 nu kc = some kc' ∧
      kc' i = kc i + ∑ k in Finset.range nu,
        sigma * (1 / (((k : α) + 1) * ((k : α) + 1) * PI atan * PI atan) *
          cos (2 * PI atan * ((k : α) + 1) * x i) * xi k) ∧
      (∀ j, j ≠ i → kc' j = kc j) := by
  have := forUpM_inv (k_term cos atan xi x i)
    (fun m t => t i = kc i + ∑ k in Finset.range m,
        sigma * (1 / (((k : α) + 1) * ((k : α) + 1) * PI atan * PI atan) *
          cos (2 * PI atan * ((k : α) + 1) * x i) * xi k) ∧
      (∀ j, j ≠ i → t j = kc j)) nu 0 kc
    ⟨by simp, fun j _ => rfl⟩
    (by
      intro m t _ hm ⟨hsum, hfr⟩
      have hpi' : PI atan ≠ 0 := by
        rcases hpi with h | h
        · omega
        · exact h
      have hk : ((m : α) + 1) ≠ 0 := Nat.cast_add_one_ne_zero m
      have hden : ((m : α) + 1) * ((m : α) + 1) * PI atan * PI atan ≠ 0 :=
        mul_ne_zero (mul_ne_zero (mul_ne_zero hk hk) hpi') hpi'
      refine ⟨Function.update t i (t i +
          sigma * (1 / (((m : α) + 1) * ((m : α) + 1) * PI atan * PI atan) *
            cos (2 * PI atan * ((m : α) + 1) * x i) * xi m)),
        by simp only [k_term, fdiv_of_ne _ hden, Option.some_bind], ?_, ?_⟩
      · simp [Finset.sum_range_succ, hsum, add_assoc]
      · intro j hj
        simpa [Function.update_noteq hj] using hfr j hj)
  simpa using this

theorem k_coefficients_spec [CharZero α] (cos atan : α → α) (N nu : Nat) (xi x mem : Nat → α)
    (hpi : nu = 0 ∨ PI atan ≠ 0) :
    ∃ k, k_coefficients cos atan N nu xi x mem = some k ∧
      (∀ i, i < N → k i = k_sum cos atan nu xi (x i)) ∧ (∀ i, N ≤ i → k i = mem i) := by
  have := forUpM_inv
    (fun i kc => forUpM (k_term cos atan xi x i) 0 nu (Function.update kc i 1))
    (fun i t => (∀ j, j < i → t j = k_sum cos atan nu xi (x j)) ∧ (∀ j, i ≤ j → t j = mem j))
    N 0 mem ⟨fun j hj => by omega, fun j _ => rfl⟩
    (by
      intro i t _ _ ⟨hlo, hhi⟩
      obtain ⟨kc', h1, h2, h3⟩ := k_inner_spec cos atan nu xi x i (Function.update t i 1) hpi
      refine ⟨kc', h1, ?_, ?_⟩
      · intro j hj
        by_cases hji : j = i
        · subst hji; simpa [k_sum] using h2
        · rw [h3 j hji, Function.update_noteq hji]; exact hlo j (by omega)
      · intro j hj
        have hji : j ≠ i := by omega
        rw [h3 j hji, Function.update_noteq hji]; exact hhi j (by omega))
  simpa [k_coefficients] using this

/-- The content of the bands after lines 74-87, for given grid, forcing and diffusivity
arrays: the interior rows `1..N-2` and the two boundary rows. -/
def Assembled (N : Nat) (x ft k : Nat → α) (t : Bands α) : Prop :=
  (∀ i, 1 ≤ i → i + 2 ≤ N →
    t.a i = 0.5 * (k i + k (i - 1)) / (x i - x (i - 1)) ∧
    t.b i = (-1) * 0.5 * (k (i + 1) + k i) / (x (i + 1) - x i) +
      (-1) * 0.5 * (k i + k (i - 1)) / (x i - x (i - 1)) ∧
    t.c i = 0.5 * (k (i + 1) + k i) / (x (i + 1) - x i) ∧
    t.d i = ft i * 0.5 * (x (i + 1) - x (i - 1))) ∧
  (t.a 0 = 0 ∧ t.b 0 = 1 ∧ t.c 0 = 0 ∧ t.d 0 = u_0) ∧
  (t.a (N - 1) = 0 ∧ t.b (N - 1) = 1 ∧ t.c (N - 1) = 0 ∧ t.d (N - 1) = u_1)

theorem assemble_row_of_ne (x ft k : Nat → α) (i : Nat) (s : Bands α)
    (h1 : x i - x (i - 1) ≠ 0) (h2 : x (i + 1) - x i ≠ 0) :
    assemble_row x ft k i s = some
      { a := Function.update s.a i (0.5 * (k i + k (i - 1)) / (x i - x (i - 1)))
        b := Function.update s.b i ((-1) * 0.5 * (k (i + 1) + k i) / (x (i + 1) - x i) +
          (-1) * 0.5 * (k i + k (i - 1)) / (x i - x (i - 1)))
        c := Function.update s.c i (0.5 * (k (i + 1) + k i) / (x (i + 1) - x i))
        d := Function.update s.d i (ft i * 0.5 * (x (i + 1) - x (i - 1))) } := by
  simp only [assemble_row, fdiv_of_ne _ h1, fdiv_of_ne _ h2, Option.some_bind]

theorem assemble_spec (N : Nat) (x ft k : Nat → α) (s : Bands α) (hN : 2 ≤ N)
    (hx : ∀ i, 1 ≤ i → i + 2 ≤ N → x i - x (i - 1) ≠ 0 ∧ x (i + 1) - x i ≠ 0) :
    ∃ t, assemble N x ft k s = some t ∧ Assembled N x ft k t := by
  obtain ⟨t, ht, hP⟩ := forUpM_inv (assemble_row x ft k)
    (fun i t => ∀ j, 1 ≤ j → j < i →
      t.a j = 0.5 * (k j + k (j - 1)) / (x j - x (j - 1)) ∧
      t.b j = (-1) * 0.5 * (k (j + 1) + k j) / (x (j + 1) - x j) +
        (-1) * 0.5 * (k j + k (j - 1)) / (x j - x (j - 1)) ∧
      t.c j = 0.5 * (k (j + 1) + k j) / (x (j + 1) - x j) ∧
      t.d j = ft j * 0.5 * (x (j + 1) - x (j - 1))) (N - 1 - 1) 1 s
    (fun j h1 h2 => by omega)
    (by
      intro i t hi hlt hP
      obtain ⟨h1, h2⟩ := hx i hi (by omega)
      refine ⟨_, assemble_row_of_ne x ft k i t h1 h2, ?_⟩
      intro j hj1 hj2
      by_cases hji : j = i
      · subst hji; simp
      · simpa [Function.update_noteq hji] using hP j hj1 (by omega))
  refine ⟨set_boundary N t, by simp [assemble, ht], ?_, ?_, ?_⟩
  · intro i h1 h2
    have h0 : i ≠ 0 := by omega
    have hn : i ≠ N - 1 := by omega
    simpa [set_boundary, Function.update_noteq h0, Function.update_noteq hn]
      using hP i h1 (by omega)
  · have hn : (0 : Nat) ≠ N - 1 := by omega
    simp [set_boundary, Function.update_noteq hn]
  · simp [set_boundary]

/-- Lines 28-87 never divide by zero on a grid of at least two points (`PI` being non-zero
when the cosine expansion has terms): the grid, the diffusivity and the bands are built. -/
theorem system_spec [CharZero α] (cos atan : α → α) (stack : Nat → Nat → α) (N nu : Nat)
    (xi : Nat → α) (hN : 2 ≤ N) (hpi : nu = 0 ∨ PI atan ≠ 0) :
    ∃ x k t, x_points N (stack 0) = some x ∧
      k_coefficients cos atan N nu xi x (stack 2) = some k ∧
      system cos atan stack N nu xi = some t ∧
      (∀ i, i < N → x i = (i : α) * (domain_length / ((N - 1 : Nat) : α))) ∧
      (∀ i, i < N → k i = k_sum cos atan nu xi (x i)) ∧
      Assembled N x (f_terms N (stack 1)) k t := by
  have hr := cast_pred_ne_zero (α := α) N hN
  obtain ⟨x, hx, hxv, -⟩ := x_points_spec N (stack 0) hr
  obtain ⟨k, hk, hkv, -⟩ := k_coefficients_spec cos atan N nu xi x (stack 2) hpi
  have hstep : ∀ i, i + 1 < N → x (i + 1) - x i ≠ 0 := by
    intro i hi
    rw [hxv (i + 1) hi, hxv i (by omega)]
    have : ((i + 1 : Nat) : α) * (domain_length / ((N - 1 : Nat) : α)) -
        (i : α) * (domain_length / ((N - 1 : Nat) : α)) = 1 / ((N - 1 : Nat) : α) := by
      simp only [domain_length]; push_cast; ring
    rw [this]
    exact one_div_ne_zero hr
  obtain ⟨t, ht, hA⟩ := assemble_spec N x (f_terms N (stack 1)) k
    { a := stack 3, b := stack 4, c := stack 5, d := stack 6 } hN
    (by
      intro i h1 h2
      refine ⟨?_, hstep i (by omega)⟩
      have := hstep (i - 1) (by omega)
      rwa [show i - 1 + 1 = i by omega] at this)
  exact ⟨x, k, t, hx, hk, by simp [system, hx, hk, ht], hxv, hkv, hA⟩

end Stages

section Unperturbed

variable {α : Type} [Field α] [DecidableEq α] [CharZero α]

/-- The bands of the unperturbed problem (diffusivity `1` at every node), with
`r = N - 1` the inverse of the grid spacing. -/
def UnperturbedBands (N : Nat) (t : Bands α) : Prop :=
  (∀ i, 1 ≤ i → i + 2 ≤ N →
    t.a i = ((N - 1 : Nat) : α) ∧ t.b i = -(2 * ((N - 1 : Nat) : α)) ∧
    t.c i = ((N - 1 : Nat) : α) ∧ t.d i = -(10 / ((N - 1 : Nat) : α))) ∧
  (t.a 0 = 0 ∧ t.b 0 = 1 ∧ t.c 0 = 0 ∧ t.d 0 = 0) ∧
  (t.a (N - 1) = 0 ∧ t.b (N - 1) = 1 ∧ t.c (N - 1) = 0 ∧ t.d (N - 1) = 0)

omit [DecidableEq α] [CharZero α] in
theorem k_sum_of_zero (cos atan : α → α) (nu : Nat) (xi : Nat → α) (xv : α)
    (hxi : ∀ k, k < nu → xi k = 0) : k_sum cos atan nu xi xv = 1 := by
  unfold k_sum
  rw [Finset.sum_eq_zero]
  · simp
  · intro k hk
    rw [hxi k (Finset.mem_range.mp hk)]
    simp

omit [DecidableEq α] in
theorem unperturbed_of_assembled (N : Nat) (x ft k : Nat → α) (t : Bands α) (hN : 2 ≤ N)
    (hx : ∀ i, i < N → x i = (i : α) * (domain_length / ((N - 1 : Nat) : α)))
    (hf : ∀ i, i < N → ft i = f) (hk : ∀ i, i < N → k i = 1)
    (hA : Assembled N x ft k t) : UnperturbedBands N t := by
  have hr := cast_pred_ne_zero (α := α) N hN
  obtain ⟨hint, h0, hn⟩ := hA
  refine ⟨?_, by simpa [u_0] using h0, by simpa [u_1] using hn⟩
  intro i h1 h2
  obtain ⟨m, rfl⟩ : ∃ m, i = m + 1 := ⟨i - 1, by omega⟩
  obtain ⟨ea, eb, ec, ed⟩ := hint (m + 1) h1 h2
  simp only [Nat.add_sub_cancel] at ea eb ec ed
  rw [hx (m + 1) (by omega), hx m (by omega), hx (m + 1 + 1) (by omega), hk (m + 1) (by omega),
    hk m (by omega), hk (m + 1 + 1) (by omega)] at eb
  rw [hx (m + 1) (by omega), hx m (by omega), hk (m + 1) (by omega), hk m (by omega)] at ea
  rw [hx (m + 1) (by omega), hx (m + 1 + 1) (by omega), hk (m + 1) (by omega),
    hk (m + 1 + 1) (by omega)] at ec
  rw [hx m (by omega), hx (m + 1 + 1) (by omega), hf (m + 1) (by omega)] at ed
  have e1 : ((m + 1 : Nat) : α) * (domain_length / ((N - 1 : Nat) : α)) -
      (m : α) * (domain_length / ((N - 1 : Nat) : α)) = 1 / ((N - 1 : Nat) : α) := by
    simp only [domain_length]; push_cast; ring
  have e2 : ((m + 1 + 1 : Nat) : α) * (domain_length / ((N - 1 : Nat) : α)) -
      ((m + 1 : Nat) : α) * (domain_length / ((N - 1 : Nat) : α)) = 1 / ((N - 1 : Nat) : α) := by
    simp only [domain_length]; push_cast; ring
  have e3 : ((m + 1 + 1 : Nat) : α) * (domain_length / ((N - 1 : Nat) : α)) -
      (m : α) * (domain_length / ((N - 1 : Nat) : α)) = 2 / ((N - 1 : Nat) : α) := by
    simp only [domain_length]; push_cast; ring
  rw [e1] at ea eb
  rw [e2] at eb ec
  rw [e3] at ed
  generalize ((N - 1 : Nat) : α) = r at *
  refine ⟨?_, ?_, ?_, ?_⟩
  · rw [ea]; norm_num
  · rw [eb]; norm_num; ring
  · rw [ec]; norm_num
  · rw [ed]; simp only [f]; norm_num; field_simp; ring

omit [DecidableEq α] in
/-- The forward sweep of the unperturbed bands in closed form: `c'[i] = -i/(i+1)` and
`d'[i] = 5*i/(N-1)^2` on the rows `0..N-2`. -/
theorem unperturbed_sweep (N : Nat) (t : Bands α) (hN : 2 ≤ N) (hU : UnperturbedBands N t) :
    ∀ i, i + 2 ≤ N → cp t i = -((i : α) / ((i : α) + 1)) ∧
      dp t i = 5 * (i : α) / (((N - 1 : Nat) : α) * ((N - 1 : Nat) : α)) := by
  have hr := cast_pred_ne_zero (α := α) N hN
  obtain ⟨hint, ⟨-, hb0, hc0, hd0⟩, -⟩ := hU
  intro i
  induction i with
  | zero => intro _; simp [cp, dp, hb0, hc0, hd0]
  | succ m ih =>
    intro hm
    obtain ⟨ihc, ihd⟩ := ih (by omega)
    obtain ⟨ea, eb, ec, ed⟩ := hint (m + 1) (by omega) hm
    have h1 : ((m : α) + 1) ≠ 0 := Nat.cast_add_one_ne_zero m
    have h2 : ((m : α) + 1 + 1) ≠ 0 := by
      have := Nat.cast_add_one_ne_zero (R := α) (m + 1)
      simpa using this
    have hden : t.b (m + 1) - t.a (m + 1) * cp t m =
        -(((N - 1 : Nat) : α) * ((m : α) + 1 + 1) / ((m : α) + 1)) := by
      rw [ea, eb, ihc]; field_simp; ring
    have hc : cp t (m + 1) = t.c (m + 1) / (t.b (m + 1) - t.a (m + 1) * cp t m) := rfl
    have hd : dp t (m + 1) =
        (t.d (m + 1) - t.a (m + 1) * dp t m) / (t.b (m + 1) - t.a (m + 1) * cp t m) := rfl
    rw [hc, hd, hden, ec, ed, ea, ihd]
    generalize ((N - 1 : Nat) : α) = r at *
    push_cast
    constructor
    · field_simp; ring
    · field_simp; ring

omit [DecidableEq α] in
theorem unperturbed_pivot (N : Nat) (t : Bands α) (hN : 2 ≤ N) (hU : UnperturbedBands N t) :
    ∀ i, 1 ≤ i → i ≤ N - 1 → pivot t i ≠ 0 := by
  have hr := cast_pred_ne_zero (α := α) N hN
  intro i h1 h2
  obtain ⟨m, rfl⟩ : ∃ m, i = m + 1 := ⟨i - 1, by omega⟩
  simp only [pivot, Nat.add_sub_cancel]
  by_cases hlast : m + 1 = N - 1
  · obtain ⟨-, -, ha, hb, -, -⟩ := hU
    rw [hlast, ha, hb]; simp
  · obtain ⟨ea, eb, -, -⟩ := hU.1 (m + 1) (by omega) (by omega)
    have h1 : ((m : α) + 1) ≠ 0 := Nat.cast_add_one_ne_zero m
    have h2 : ((m : α) + 1 + 1) ≠ 0 := by
      have := Nat.cast_add_one_ne_zero (R := α) (m + 1)
      simpa using this
    have hden : t.b (m + 1) - t.a (m + 1) * cp t m =
        -(((N - 1 : Nat) : α) * ((m : α) + 1 + 1) / ((m : α) + 1)) := by
      rw [ea, eb, (unperturbed_sweep N t hN hU m (by omega)).1]; field_simp; ring
    rw [hden]
    exact neg_ne_zero.mpr (div_ne_zero (mul_ne_zero hr h2) h1)

/-- The solve of the unperturbed bands succeeds, and its result is
`u[j] = 5*j*((N-1) - j)/(N-1)^2` at every node. -/
theorem unperturbed_tdma (N : Nat) (t : Bands α) (hN : 2 ≤ N) (hU : UnperturbedBands N t) :
    ∃ u, tdma N t = some u ∧ ∀ j, j < N →
      u j = 5 * (j : α) * (((N - 1 : Nat) : α) - (j : α)) /
        (((N - 1 : Nat) : α) * ((N - 1 : Nat) : α)) := by
  have hr := cast_pred_ne_zero (α := α) N hN
  obtain ⟨u, hu, hlast, hrec, -⟩ := tdma_spec N t hN (by rw [hU.2.1.2.1]; exact one_ne_zero)
    (unperturbed_pivot N t hN hU)
  refine ⟨u, hu, ?_⟩
  have key : ∀ k j, j + k = N - 1 →
      u j = 5 * (j : α) * (((N - 1 : Nat) : α) - (j : α)) /
        (((N - 1 : Nat) : α) * ((N - 1 : Nat) : α)) := by
    intro k
    induction k with
    | zero =>
      intro j hj
      obtain rfl : j = N - 1 := by omega
      obtain ⟨m, hm⟩ : ∃ m, N - 1 = m + 1 := ⟨N - 2, by omega⟩
      obtain ⟨-, -, ha, hb, -, hd⟩ := hU
      rw [hlast]
      have : dp t (N - 1) = 0 := by
        rw [hm, dp, ← hm, ha, hd]; simp
      rw [this]; simp
    | succ k ih =>
      intro j hj
      have hj1 := ih (j + 1) (by omega)
      obtain ⟨ec, ed⟩ := unperturbed_sweep N t hN hU j (by omega)
      have h1 : ((j : α) + 1) ≠ 0 := Nat.cast_add_one_ne_zero j
      rw [hrec j (by omega), hj1, ec, ed]
      generalize ((N - 1 : Nat) : α) = r at *
      push_cast
      field_simp
      ring
  intro j hj
  exact key (N - 1 - j) j (by omega)

/-- With every sample zero (or no sample at all) the run succeeds and the array `d` holds
`5*x*(1-x)` at every node `x = j/(N-1)`. -/
theorem solution_unperturbed (cos atan : α → α) (stack : Nat → Nat → α) (N nu : Nat)
    (xi : Nat → α) (hN : 2 ≤ N) (hpi : nu = 0 ∨ PI atan ≠ 0) (hxi : ∀ k, k < nu → xi k = 0) :
    ∃ u, solution cos atan stack N nu xi = some u ∧ ∀ j, j < N →
      u j = 5 * (j : α) * (((N - 1 : Nat) : α) - (j : α)) /
        (((N - 1 : Nat) : α) * ((N - 1 : Nat) : α)) := by
  obtain ⟨x, k, t, -, -, ht, hx, hk, hA⟩ := system_spec cos atan stack N nu xi hN hpi
  have hU := unperturbed_of_assembled N x (f_terms N (stack 1)) k t hN hx
    (f_terms_spec N (stack 1)).1
    (fun i hi => by rw [hk i hi, k_sum_of_zero cos atan nu xi _ hxi]) hA
  obtain ⟨u, hu, huv⟩ := unperturbed_tdma N t hN hU
  exact ⟨u, by simp [solution, ht, hu], huv⟩

end Unperturbed

section ThomasCorrect

variable {α : Type} [Field α] [DecidableEq α]

/-- C1: for every `N >= 2` and every bands `a, b, c` and right-hand side `d` (in particular
the ones `system` assembles), if `b[0]` and every elimination denominator
`b[i] - a[i]*c'[i-1]`, `i = 1..N-1`, are non-zero, then the solve returns an array `u` that
satisfies every row of the original system: row `0`, the rows `1..N-2` and row `N-1`. -/
theorem thomas_solve_correct (N : Nat) (s : Bands α) (hN : 2 ≤ N) (hb : s.b 0 ≠ 0)
    (hp : ∀ i, 1 ≤ i → i ≤ N - 1 → s.b i - s.a i * cp s (i - 1) ≠ 0) :
    ∃ u, tdma N s = some u ∧
      s.b 0 * u 0 + s.c 0 * u 1 = s.d 0 ∧
      (∀ i, 1 ≤ i → i ≤ N - 2 →
        s.a i * u (i - 1) + s.b i * u i + s.c i * u (i + 1) = s.d i) ∧
      s.a (N - 1) * u (N - 2) + s.b (N - 1) * u (N - 1) = s.d (N - 1) := by
  obtain ⟨u, hu, hlast, hrec, -⟩ := tdma_spec N s hN hb hp
  obtain ⟨n, rfl⟩ : ∃ n, N = n + 2 := ⟨N - 2, by omega⟩
  simp only [Nat.add_sub_cancel, show n + 2 - 1 = n + 1 by omega] at hp hlast hrec ⊢
  refine ⟨u, hu, ?_, ?_, ?_⟩
  · rw [hrec 0 (by omega)]
    simp only [cp, dp]
    field_simp
  · intro i h1 h2
    obtain ⟨m, rfl⟩ : ∃ m, i = m + 1 := ⟨i - 1, by omega⟩
    have hpm := hp (m + 1) (by omega) (by omega)
    simp only [Nat.add_sub_cancel] at hpm ⊢
    rw [hrec m (by omega), hrec (m + 1) (by omega)]
    simp only [cp, dp]
    field_simp
    ring
  · have hpn := hp (n + 1) (by omega) (le_refl _)
    simp only [Nat.add_sub_cancel] at hpn
    rw [hrec n (by omega), hlast]
    simp only [dp]
    field_simp
    ring

/-- C1, at a concrete input: the system of the unperturbed three-point grid. -/
theorem thomas_solve_correct_witness :
    ∃ u, tdma 3 (⟨fun i => if i = 1 then 2 else 0, fun i => if i = 1 then -4 else 1,
        fun i => if i = 1 then 2 else 0, fun i => if i = 1 then -5 else 0⟩ : Bands ℚ) = some u ∧
      (1 : ℚ) * u 0 + 0 * u 1 = 0 ∧
      (∀ i, 1 ≤ i → i ≤ 3 - 2 →
        (if i = 1 then (2 : ℚ) else 0) * u (i - 1) + (if i = 1 then -4 else 1) * u i +
          (if i = 1 then 2 else 0) * u (i + 1) = (if i = 1 then -5 else 0)) ∧
      (0 : ℚ) * u (3 - 2) + 1 * u (3 - 1) = 0 :=
  thomas_solve_correct 3 _ (by decide) (by simp)
    (by
      intro i h1 h2
      have : i = 1 ∨ i = 2 := by omega
      rcases this with rfl | rfl <;> simp [cp])

end ThomasCorrect

section Boundary

variable {α : Type} [Field α] [DecidableEq α]

/-- With identity boundary rows and no vanishing elimination denominator, the solve returns
the boundary values `0` at both ends. -/
theorem tdma_boundary (N : Nat) (t : Bands α) (hN : 2 ≤ N)
    (h0 : t.a 0 = 0 ∧ t.b 0 = 1 ∧ t.c 0 = 0 ∧ t.d 0 = 0)
    (hn : t.a (N - 1) = 0 ∧ t.b (N - 1) = 1 ∧ t.c (N - 1) = 0 ∧ t.d (N - 1) = 0)
    (hp : ∀ i, 1 ≤ i → i ≤ N - 1 → pivot t i ≠ 0) :
    ∃ u, tdma N t = some u ∧ u 0 = 0 ∧ u (N - 1) = 0 := by
  obtain ⟨u, hu, hlast, hrec, -⟩ := tdma_spec N t hN (by rw [h0.2.1]; exact one_ne_zero) hp
  refine ⟨u, hu, ?_, ?_⟩
  · rw [hrec 0 (by omega)]
    simp [cp, dp, h0.2.2.1, h0.2.2.2]
  · obtain ⟨m, hm⟩ : ∃ m, N - 1 = m + 1 := ⟨N - 2, by omega⟩
    rw [hlast, hm, dp, ← hm, hn.1, hn.2.2.2]
    simp

/-- The solve has no result when the elimination denominator of row `1` vanishes. -/
theorem tdma_none_of_pivot_one (N : Nat) (t : Bands α) (hN : 3 ≤ N) (hb : t.b 0 ≠ 0)
    (hp : pivot t 1 = 0) : tdma N t = none := by
  obtain ⟨n, rfl⟩ : ∃ n, N = n + 3 := ⟨N - 3, by omega⟩
  have h1 : tdma_first t = some
      { t with c := Function.update t.c 0 (t.c 0 / t.b 0),
               d := Function.update t.d 0 (t.d 0 / t.b 0) } := by
    simp [tdma_first, fdiv_of_ne _ hb]
  have hp' : t.b 1 - t.a 1 * (t.c 0 / t.b 0) = 0 := hp
  have h2 : tdma_row 1
      { t with c := Function.update t.c 0 (t.c 0 / t.b 0),
               d := Function.update t.d 0 (t.d 0 / t.b 0) } = none := by
    simp [tdma_row, hp', fdiv_zero]
  simp [tdma, h1, show n + 3 - 1 - 1 = n + 1 by omega, forUpM, h2]

end Boundary

/-! ## The routine over the real numbers -/

section RealRun

theorem PI_real : PI Real.arctan = Real.pi := by
  simp only [PI, Real.arctan_one]; ring

theorem PI_real_ne_zero (nu : Nat) : nu = 0 ∨ PI Real.arctan ≠ 0 :=
  Or.inr (by rw [PI_real]; exact Real.pi_ne_zero)

/-- A sample that makes the diffusivity vanish at every node of the three-point grid:
`xi[0] = 0`, `xi[1] = -4*pi^2`. -/
theorem k_sum_vanishes (j : Nat) :
    k_sum Real.cos Real.arctan 2 (fun k => if k = 1 then -(4 * Real.pi ^ 2) else 0)
      ((j : ℝ) * (domain_length / ((3 - 1 : Nat) : ℝ))) = 0 := by
  have hc : Real.cos (2 * Real.pi * 2 * ((j : ℝ) * (1 / 2))) = 1 := by
    rw [Real.cos_eq_one_iff]
    exact ⟨j, by push_cast; ring⟩
  have hpi := Real.pi_ne_zero
  simp only [k_sum, PI_real, Finset.sum_range_succ, Finset.sum_range_zero, domain_length, sigma]
  norm_num
  rw [hc]
  field_simp
  ring

/-- C2, refuted as stated: on the three-point grid with the sample `xi = (0, -4*pi^2)` the
diffusivity is zero at every node, the elimination denominator of row `1` is zero, and the
run has no solution array at all, so no boundary value `0` either. -/
theorem dirichlet_boundary_counterexample :
    ¬ ∃ u, solution Real.cos Real.arctan (fun _ _ => 0) 3 2
        (fun k => if k = 1 then -(4 * Real.pi ^ 2) else 0) = some u ∧
      u 0 = 0 ∧ u (3 - 1) = 0 := by
  obtain ⟨x, k, t, -, -, ht, hx, hk, hA⟩ := system_spec Real.cos Real.arctan (fun _ _ => 0) 3 2
    (fun k => if k = 1 then -(4 * Real.pi ^ 2) else 0) (by decide) (PI_real_ne_zero 2)
  have hk0 : ∀ j, j < 3 → k j = 0 := by
    intro j hj
    rw [hk j hj, hx j hj]
    exact k_sum_vanishes j
  obtain ⟨hint, ⟨-, hb0, -, -⟩, -⟩ := hA
  obtain ⟨ea, eb, -, -⟩ := hint 1 (le_refl _) (by decide)
  have hnone : tdma 3 t = none := by
    apply tdma_none_of_pivot_one 3 t (le_refl _) (by rw [hb0]; exact one_ne_zero)
    simp only [pivot, ea, eb, hk0 0 (by decide), hk0 1 (by decide), hk0 2 (by decide)]
    simp
  rintro ⟨u, hu, -⟩
  simp [solution, ht, hnone] at hu

/-- C2, amended: for every `N >= 2`, every `nu` and every `xi` the bands are assembled, and
whenever no elimination denominator `b[i] - a[i]*c'[i-1]`, `i = 1..N-1`, of the assembled
system is zero, the run has a solution array `d` with `d[0] = 0` and `d[N-1] = 0`. -/
theorem dirichlet_boundary (stack : Nat → Nat → ℝ) (N nu : Nat) (xi : Nat → ℝ) (hN : 2 ≤ N) :
    ∃ t, system Real.cos Real.arctan stack N nu xi = some t ∧
      ((∀ i, 1 ≤ i → i ≤ N - 1 → t.b i - t.a i * cp t (i - 1) ≠ 0) →
        ∃ u, solution Real.cos Real.arctan stack N nu xi = some u ∧
          u 0 = 0 ∧ u (N - 1) = 0) := by
  obtain ⟨x, k, t, -, -, ht, -, -, -, h0, hn⟩ :=
    system_spec Real.cos Real.arctan stack N nu xi hN (PI_real_ne_zero nu)
  refine ⟨t, ht, fun hp => ?_⟩
  obtain ⟨u, hu, hu0, hun⟩ := tdma_boundary N t hN (by simpa [u_0] using h0)
    (by simpa [u_1] using hn) hp
  exact ⟨u, by simp [solution, ht, hu], hu0, hun⟩

/-- C2 amended, at a concrete input: three grid points and two samples, both zero; the
elimination denominators of the assembled system are non-zero there, so the solution array
exists and is `0` at both ends. -/
theorem dirichlet_boundary_witness :
    ∃ u, solution Real.cos Real.arctan (fun _ _ => 0) 3 2 (fun _ => 0) = some u ∧
      u 0 = 0 ∧ u (3 - 1) = 0 := by
  obtain ⟨t, ht, h⟩ := dirichlet_boundary (fun _ _ => 0) 3 2 (fun _ => 0) (by decide)
  obtain ⟨x, k, t', -, -, ht', hx, hk, hA⟩ := system_spec Real.cos Real.arctan
    (fun _ _ => (0 : ℝ)) 3 2 (fun _ => 0) (by decide) (PI_real_ne_zero 2)
  obtain rfl : t = t' := Option.some.inj (ht.symm.trans ht')
  have hU := unperturbed_of_assembled 3 x (f_terms 3 ((fun _ _ => (0 : ℝ)) 1)) k t (by decide)
    hx (f_terms_spec 3 _).1
    (fun i hi => by
      rw [hk i hi, k_sum_of_zero Real.cos Real.arctan 2 (fun _ => 0) _ (fun _ _ => rfl)]) hA
  exact h (unperturbed_pivot 3 t (by decide) hU)

/-- C3: with `num_grid_points = 5` and `num_uncertainties = 0` the routine builds the grid
`[0, 0.25, 0.5, 0.75, 1.0]`, the diffusivity `1.0` and the forcing `-10` at every node, and it
returns `1.25`, the value of `5*x*(1-x)` at `x = 0.5`. -/
theorem five_point_scenario (stack : Nat → Nat → ℝ) (xi : Nat → ℝ) :
    ∃ x k, x_points 5 (stack 0) = some x ∧
      (x 0 = 0 ∧ x 1 = 0.25 ∧ x 2 = 0.5 ∧ x 3 = 0.75 ∧ x 4 = 1.0) ∧
      k_coefficients Real.cos Real.arctan 5 0 xi x (stack 2) = some k ∧
      (∀ i, i < 5 → k i = 1.0) ∧
      (∀ i, i < 5 → f_terms 5 (stack 1) i = -10) ∧
      diffusion_1d Real.cos Real.arctan stack 5 0 xi = some 1.25 ∧
      (1.25 : ℝ) = 5 * 0.5 * (1 - 0.5) := by
  obtain ⟨x, k, t, hx, hk, -, hxv, hkv, -⟩ :=
    system_spec Real.cos Real.arctan stack 5 0 xi (by decide) (Or.inl rfl)
  obtain ⟨u, hu, huv⟩ := solution_unperturbed Real.cos Real.arctan stack 5 0 xi (by decide)
    (Or.inl rfl) (fun k hk => absurd hk (Nat.not_lt_zero k))
  refine ⟨x, k, hx, ⟨?_, ?_, ?_, ?_, ?_⟩, hk, ?_, ?_, ?_, by norm_num⟩
  · rw [hxv 0 (by decide)]; simp
  · rw [hxv 1 (by decide)]; simp only [domain_length]; norm_num
  · rw [hxv 2 (by decide)]; simp only [domain_length]; norm_num
  · rw [hxv 3 (by decide)]; simp only [domain_length]; norm_num
  · rw [hxv 4 (by decide)]; simp only [domain_length]; norm_num
  · intro i hi
    rw [hkv i hi, k_sum_of_zero Real.cos Real.arctan 0 xi _
      (fun k hk => absurd hk (Nat.not_lt_zero k))]
    norm_num
  · intro i hi
    rw [(f_terms_spec 5 (stack 1)).1 i hi]; rfl
  · have h2 := huv 2 (by decide)
    simp only [diffusion_1d, hu, Option.map_some', show 5 / 2 = 2 by decide, h2]
    norm_num

/-- C4: with `num_grid_points = 2` the interior assembly loop and the forward-elimination
loop run zero times, the assembled system is the two identity boundary rows, the selected
index is `2/2 = 1`, and the routine returns `u_1 = 0.0`, for every `nu` and `xi`. -/
theorem two_point_edge_case (stack : Nat → Nat → ℝ) (nu : Nat) (xi : Nat → ℝ) :
    (∀ (x ft k : Nat → ℝ) (s : Bands ℝ),
      forUpM (assemble_row x ft k) 1 (2 - 1 - 1) s = some s) ∧
    (∀ s : Bands ℝ, forUpM tdma_row 1 (2 - 1 - 1) s = some s) ∧
    (∃ t, system Real.cos Real.arctan stack 2 nu xi = some t ∧
      (t.a 0 = 0 ∧ t.b 0 = 1 ∧ t.c 0 = 0 ∧ t.d 0 = 0) ∧
      (t.a 1 = 0 ∧ t.b 1 = 1 ∧ t.c 1 = 0 ∧ t.d 1 = 0)) ∧
    2 / 2 = 1 ∧
    diffusion_1d Real.cos Real.arctan stack 2 nu xi = some u_1 ∧ (u_1 : ℝ) = 0.0 := by
  obtain ⟨x, k, t, -, -, ht, -, -, -, h0, hn⟩ :=
    system_spec Real.cos Real.arctan stack 2 nu xi (le_refl _) (PI_real_ne_zero nu)
  have h0' : t.a 0 = 0 ∧ t.b 0 = 1 ∧ t.c 0 = 0 ∧ t.d 0 = 0 := by simpa [u_0] using h0
  have hn' : t.a 1 = 0 ∧ t.b 1 = 1 ∧ t.c 1 = 0 ∧ t.d 1 = 0 := by simpa [u_1] using hn
  obtain ⟨u, hu, -, hu1⟩ := tdma_boundary 2 t (le_refl _) h0' hn'
    (by
      intro i h1 h2
      obtain rfl : i = 1 := by omega
      simp [pivot, hn'.1, hn'.2.1])
  refine ⟨fun _ _ _ _ => rfl, fun _ => rfl, ⟨t, ht, h0', hn'⟩, rfl, ?_, by simp only [u_1]; norm_num⟩
  simp only [diffusion_1d, solution, ht, Option.some_bind, hu, Option.map_some',
    show 2 / 2 = 1 by decide]
  simpa [u_1] using hu1

/-- C5: for every `N >= 2` and every `nu`, with all samples `xi[k]` zero the run has a
solution array, and it is symmetric about the midpoint: `u[i] = u[N-1-i]` for `i` in
`0..N-1`. -/
theorem solution_symmetric (stack : Nat → Nat → ℝ) (N nu : Nat) (xi : Nat → ℝ) (hN : 2 ≤ N)
    (hxi : ∀ k, k < nu → xi k = 0) :
    ∃ u, solution Real.cos Real.arctan stack N nu xi = some u ∧
      ∀ i, i < N → u i = u (N - 1 - i) := by
  obtain ⟨u, hu, huv⟩ := solution_unperturbed Real.cos Real.arctan stack N nu xi hN
    (PI_real_ne_zero nu) hxi
  refine ⟨u, hu, fun i hi => ?_⟩
  rw [huv i hi, huv (N - 1 - i) (by omega), Nat.cast_sub (by omega : i ≤ N - 1)]
  ring

/-- C5, at a concrete input: seven grid points, three samples, all zero. -/
theorem solution_symmetric_witness :
    ∃ u, solution Real.cos Real.arctan (fun _ _ => 0) 7 3 (fun _ => 0) = some u ∧
      ∀ i, i < 7 → u i = u (7 - 1 - i) :=
  solution_symmetric (fun _ _ => 0) 7 3 (fun _ => 0) (by decide) (fun _ _ => rfl)

/-- C7: for every `N >= 2` the grid loop produces `x[i] = i * (domain_length/(N-1))` with
`domain_length = 1`, so `x[0] = 0`, `x[N-1] = 1`, consecutive points are `1/(N-1)` apart and
the points are strictly increasing. -/
theorem grid_invariant (N : Nat) (mem : Nat → ℝ) (hN : 2 ≤ N) :
    ∃ x, x_points N mem = some x ∧
      (∀ i, i < N → x i = (i : ℝ) * (domain_length / ((N : ℝ) - 1))) ∧
      (domain_length : ℝ) = 1 ∧
      x 0 = 0 ∧ x (N - 1) = 1 ∧
      (∀ i, i + 1 < N → x (i + 1) - x i = 1 / ((N : ℝ) - 1)) ∧
      (∀ i j, i < j → j < N → x i < x j) := by
  have hr := cast_pred_ne_zero (α := ℝ) N hN
  obtain ⟨x, hx, hxv, -⟩ := x_points_spec N mem hr
  have hcast : ((N - 1 : Nat) : ℝ) = (N : ℝ) - 1 := by
    rw [Nat.cast_sub (by omega : 1 ≤ N)]; simp
  rw [hcast] at hxv hr
  have hpos : (0 : ℝ) < (N : ℝ) - 1 := by
    have : (2 : ℝ) ≤ (N : ℝ) := by exact_mod_cast hN
    linarith
  refine ⟨x, hx, hxv, rfl, ?_, ?_, ?_, ?_⟩
  · rw [hxv 0 (by omega)]; simp
  · rw [hxv (N - 1) (by omega), hcast]
    simp only [domain_length]
    field_simp
  · intro i hi
    rw [hxv (i + 1) hi, hxv i (by omega)]
    simp only [domain_length]
    push_cast
    ring
  · intro i j hij hj
    rw [hxv i (by omega), hxv j hj]
    have hd : (0 : ℝ) < domain_length / ((N : ℝ) - 1) := by
      simp only [domain_length]; positivity
    have hij' : (i : ℝ) < (j : ℝ) := by exact_mod_cast hij
    exact mul_lt_mul_of_pos_right hij' hd

/-- C7, at a concrete input: the grid of six points. -/
theorem grid_invariant_witness :
    ∃ x, x_points 6 (fun _ => (0 : ℝ)) = some x ∧
      (∀ i, i < 6 → x i = (i : ℝ) * (domain_length / (((6 : Nat) : ℝ) - 1))) ∧
      (domain_length : ℝ) = 1 ∧
      x 0 = 0 ∧ x (6 - 1) = 1 ∧
      (∀ i, i + 1 < 6 → x (i + 1) - x i = 1 / (((6 : Nat) : ℝ) - 1)) ∧
      (∀ i j, i < j → j < 6 → x i < x j) :=
  grid_invariant 6 (fun _ => 0) (by decide)

/-- C8: for `num_uncertainties = 0` and every `N`, the inner accumulation loop runs zero
times and the diffusivity loop leaves `1.0` at every node `0..N-1`, whatever the sample
array `xi` (and whatever the grid array) holds. -/
theorem degenerate_coefficient_field (N : Nat) (xi x mem : Nat → ℝ) :
    (∀ (i : Nat) (kc : Nat → ℝ),
      forUpM (k_term Real.cos Real.arctan xi x i) 0 0 kc = some kc) ∧
    ∃ k, k_coefficients Real.cos Real.arctan N 0 xi x mem = some k ∧
      ∀ i, i < N → k i = 1.0 := by
  refine ⟨fun _ _ => rfl, ?_⟩
  obtain ⟨k, hk, hkv, -⟩ := k_coefficients_spec Real.cos Real.arctan N 0 xi x mem (Or.inl rfl)
  refine ⟨k, hk, fun i hi => ?_⟩
  rw [hkv i hi, k_sum_of_zero Real.cos Real.arctan 0 xi _
    (fun k hk => absurd hk (Nat.not_lt_zero k))]
  norm_num

/-- C9: for every `N >= 2` the routine returns the entry of index `N/2` (floor division)
of the solution array; the grid point of that index is `(N/2)/(N-1)`, which is `0.5` exactly
when `N` is odd and is strictly greater than `0.5` when `N` is even. -/
theorem result_extraction (stack : Nat → Nat → ℝ) (N nu : Nat) (xi : Nat → ℝ) (hN : 2 ≤ N) :
    diffusion_1d Real.cos Real.arctan stack N nu xi =
      (solution Real.cos Real.arctan stack N nu xi).map (fun d => d (N / 2)) ∧
    ∃ x, x_points N (stack 0) = some x ∧
      x (N / 2) = ((N / 2 : Nat) : ℝ) / ((N : ℝ) - 1) ∧
      (x (N / 2) = 0.5 ↔ Odd N) ∧ (Even N → 0.5 < x (N / 2)) := by
  refine ⟨rfl, ?_⟩
  have hr := cast_pred_ne_zero (α := ℝ) N hN
  obtain ⟨x, hx, hxv, -⟩ := x_points_spec N (stack 0) hr
  have hcast : ((N - 1 : Nat) : ℝ) = (N : ℝ) - 1 := by
    rw [Nat.cast_sub (by omega : 1 ≤ N)]; simp
  rw [hcast] at hxv hr
  have hval : x (N / 2) = ((N / 2 : Nat) : ℝ) / ((N : ℝ) - 1) := by
    rw [hxv (N / 2) (by omega)]
    simp only [domain_length]
    field_simp
  have heven : Even N → 0.5 < x (N / 2) := by
    rintro ⟨m, rfl⟩
    have hm : 1 ≤ m := by omega
    have hm' : (1 : ℝ) ≤ (m : ℝ) := by exact_mod_cast hm
    rw [hval, show (m + m) / 2 = m by omega]
    push_cast
    rw [lt_div_iff₀ (by linarith)]
    norm_num
    linarith
  have hodd : Odd N → x (N / 2) = 0.5 := by
    rintro ⟨m, rfl⟩
    have hm : 1 ≤ m := by omega
    have hm' : (1 : ℝ) ≤ (m : ℝ) := by exact_mod_cast hm
    rw [hval, show (2 * m + 1) / 2 = m by omega]
    push_cast
    rw [div_eq_iff (by linarith)]
    norm_num
    ring
  refine ⟨x, hx, hval, ⟨fun h => ?_, hodd⟩, heven⟩
  rcases Nat.even_or_odd N with he | ho
  · exact absurd h (ne_of_gt (heven he))
  · exact ho

/-- C9, at a concrete input: ten grid points, where the selected node lies past the centre. -/
theorem result_extraction_witness :
    diffusion_1d Real.cos Real.arctan (fun _ _ => 0) 10 2 (fun _ => 1) =
      (solution Real.cos Real.arctan (fun _ _ => 0) 10 2 (fun _ => 1)).map
        (fun d => d (10 / 2)) ∧
    ∃ x, x_points 10 ((fun _ _ => (0 : ℝ)) 0) = some x ∧
      x (10 / 2) = ((10 / 2 : Nat) : ℝ) / (((10 : Nat) : ℝ) - 1) ∧
      (x (10 / 2) = 0.5 ↔ Odd 10) ∧ (Even 10 → 0.5 < x (10 / 2)) :=
  result_extraction (fun _ _ => 0) 10 2 (fun _ => 1) (by decide)

/-- With every sample zero the routine returns `5*m*((N-1) - m)/(N-1)^2`, `m = N/2`. -/
theorem diffusion_unperturbed (stack : Nat → Nat → ℝ) (N nu : Nat) (xi : Nat → ℝ)
    (hN : 2 ≤ N) (hxi : ∀ k, k < nu → xi k = 0) :
    diffusion_1d Real.cos Real.arctan stack N nu xi = some
      (5 * ((N / 2 : Nat) : ℝ) * (((N - 1 : Nat) : ℝ) - ((N / 2 : Nat) : ℝ)) /
        (((N - 1 : Nat) : ℝ) * ((N - 1 : Nat) : ℝ))) := by
  obtain ⟨u, hu, huv⟩ := solution_unperturbed Real.cos Real.arctan stack N nu xi hN
    (PI_real_ne_zero nu) hxi
  simp only [diffusion_1d, hu, Option.map_some', huv (N / 2) (by omega)]

/-- The distance of the unperturbed midpoint value to `1.25`: zero on an odd grid,
`1.25/(N-1)^2` on an even one. -/
theorem midpoint_gap (N : Nat) (hN : 2 ≤ N) :
    |5 * ((N / 2 : Nat) : ℝ) * (((N - 1 : Nat) : ℝ) - ((N / 2 : Nat) : ℝ)) /
        (((N - 1 : Nat) : ℝ) * ((N - 1 : Nat) : ℝ)) - 1.25| ≤ 1.25 / ((N : ℝ) - 1) ^ 2 := by
  have hcast : ((N - 1 : Nat) : ℝ) = (N : ℝ) - 1 := by
    rw [Nat.cast_sub (by omega : 1 ≤ N)]; simp
  rw [hcast]
  rcases Nat.even_or_odd N with ⟨m, rfl⟩ | ⟨m, rfl⟩
  · have hm : 1 ≤ m := by omega
    have hm' : (1 : ℝ) ≤ (m : ℝ) := by exact_mod_cast hm
    have hpos : (0 : ℝ) < 2 * (m : ℝ) - 1 := by linarith
    rw [show (m + m) / 2 = m by omega]
    push_cast
    have e : 5 * (m : ℝ) * ((m : ℝ) + m - 1 - m) / (((m : ℝ) + m - 1) * ((m : ℝ) + m - 1)) -
        1.25 = -(1.25 / ((m : ℝ) + m - 1) ^ 2) := by
      have h1 : ((m : ℝ) + m - 1) ≠ 0 := by
        have : (m : ℝ) + m - 1 = 2 * (m : ℝ) - 1 := by ring
        rw [this]; exact ne_of_gt hpos
      field_simp
      ring
    rw [e, abs_neg, abs_of_nonneg (by positivity)]
  · have hm : 1 ≤ m := by omega
    have hm' : (1 : ℝ) ≤ (m : ℝ) := by exact_mod_cast hm
    rw [show (2 * m + 1) / 2 = m by omega]
    push_cast
    have e : 5 * (m : ℝ) * (2 * (m : ℝ) + 1 - 1 - m) /
        ((2 * (m : ℝ) + 1 - 1) * (2 * (m : ℝ) + 1 - 1)) - 1.25 = 0 := by
      have h1 : (m : ℝ) ≠ 0 := by
        have : (0 : ℝ) < (m : ℝ) := by linarith
        exact ne_of_gt this
      have h2 : (2 * (m : ℝ) + 1 - 1) = 2 * (m : ℝ) := by ring
      rw [h2]
      field_simp
      ring
    rw [e, abs_zero]
    positivity

/-- C6: with every sample zero (or `nu = 0`), for every `N >= 2` the routine returns a
value within `1.25/(N-1)^2` of `1.25`; for `N = 10, 50, 200` the successive differences
shrink, `|v(200) - v(50)| < |v(50) - v(10)|`; and the returned values converge to `1.25`. -/
theorem grid_refinement (stack : Nat → Nat → ℝ) (nu : Nat) (xi : Nat → ℝ)
    (hxi : ∀ k, k < nu → xi k = 0) :
    (∀ N, 2 ≤ N → ∃ v, diffusion_1d Real.cos Real.arctan stack N nu xi = some v ∧
      |v - 1.25| ≤ 1.25 / ((N : ℝ) - 1) ^ 2) ∧
    (∃ v10 v50 v200, diffusion_1d Real.cos Real.arctan stack 10 nu xi = some v10 ∧
      diffusion_1d Real.cos Real.arctan stack 50 nu xi = some v50 ∧
      diffusion_1d Real.cos Real.arctan stack 200 nu xi = some v200 ∧
      |v200 - v50| < |v50 - v10|) ∧
    (∀ ε : ℝ, 0 < ε → ∃ N0, ∀ N, N0 ≤ N →
      ∃ v, diffusion_1d Real.cos Real.arctan stack N nu xi = some v ∧ |v - 1.25| < ε) := by
  have hbound : ∀ N, 2 ≤ N → ∃ v, diffusion_1d Real.cos Real.arctan stack N nu xi = some v ∧
      |v - 1.25| ≤ 1.25 / ((N : ℝ) - 1) ^ 2 :=
    fun N hN => ⟨_, diffusion_unperturbed stack N nu xi hN hxi, midpoint_gap N hN⟩
  refine ⟨hbound, ?_, ?_⟩
  · refine ⟨_, _, _, diffusion_unperturbed stack 10 nu xi (by decide) hxi,
      diffusion_unperturbed stack 50 nu xi (by decide) hxi,
      diffusion_unperturbed stack 200 nu xi (by decide) hxi, ?_⟩
    norm_num [abs_of_pos]
  · intro ε hε
    obtain ⟨M, hM⟩ := exists_nat_gt (1.25 / ε)
    refine ⟨M + 2, fun N hN => ?_⟩
    obtain ⟨v, hv, hle⟩ := hbound N (by omega)
    refine ⟨v, hv, lt_of_le_of_lt hle ?_⟩
    have hN' : (M : ℝ) + 2 ≤ (N : ℝ) := by exact_mod_cast hN
    have hq : 0 < 1.25 / ε := by positivity
    have h1 : (1 : ℝ) ≤ (N : ℝ) - 1 := by linarith
    have h2 : 1.25 / ε < (N : ℝ) - 1 := by linarith
    have h3 : (N : ℝ) - 1 ≤ ((N : ℝ) - 1) ^ 2 := by nlinarith
    rw [div_lt_iff₀ (by positivity)]
    rw [div_lt_iff₀ hε] at h2
    nlinarith

/-- C6, at a concrete input: four samples, all zero. -/
theorem grid_refinement_witness :
    (∀ N, 2 ≤ N →
      ∃ v, diffusion_1d Real.cos Real.arctan (fun _ _ => 0) N 4 (fun _ => 0) = some v ∧
        |v - 1.25| ≤ 1.25 / ((N : ℝ) - 1) ^ 2) ∧
    (∃ v10 v50 v200,
      diffusion_1d Real.cos Real.arctan (fun _ _ => 0) 10 4 (fun _ => 0) = some v10 ∧
      diffusion_1d Real.cos Real.arctan (fun _ _ => 0) 50 4 (fun _ => 0) = some v50 ∧
      diffusion_1d Real.cos Real.arctan (fun _ _ => 0) 200 4 (fun _ => 0) = some v200 ∧
      |v200 - v50| < |v50 - v10|) ∧
    (∀ ε : ℝ, 0 < ε → ∃ N0, ∀ N, N0 ≤ N →
      ∃ v, diffusion_1d Real.cos Real.arctan (fun _ _ => 0) N 4 (fun _ => 0) = some v ∧
        |v - 1.25| < ε) :=
  grid_refinement (fun _ _ => 0) 4 (fun _ => 0) (fun _ _ => rfl)

/-- With every sample zero the assembled bands are the unperturbed ones. -/
theorem system_unperturbed (stack : Nat → Nat → ℝ) (N nu : Nat) (xi : Nat → ℝ)
    (hN : 2 ≤ N) (hxi : ∀ k, k < nu → xi k = 0) :
    ∃ t, system Real.cos Real.arctan stack N nu xi = some t ∧ UnperturbedBands N t := by
  obtain ⟨x, k, t, -, -, ht, hx, hk, hA⟩ :=
    system_spec Real.cos Real.arctan stack N nu xi hN (PI_real_ne_zero nu)
  exact ⟨t, ht, unperturbed_of_assembled N x (f_terms N (stack 1)) k t hN hx
    (f_terms_spec N (stack 1)).1
    (fun i hi => by rw [hk i hi, k_sum_of_zero Real.cos Real.arctan nu xi _ hxi]) hA⟩

/-- C10, refuted as stated: on the three-point grid with all samples zero the boundary row
`0` has `c[0] = 0` while the interior row `1` has `a[1] = 2`, so `c[i] = a[i+1]` fails at
`i = 0`. -/
theorem band_symmetry_counterexample :
    ¬ ∃ t, system Real.cos Real.arctan (fun _ _ => 0) 3 2 (fun _ => 0) = some t ∧
      ∀ i, i ≤ 3 - 2 → t.c i = t.a (i + 1) := by
  obtain ⟨t, ht, hint, ⟨-, -, hc0, -⟩, -⟩ :=
    system_unperturbed (fun _ _ => 0) 3 2 (fun _ => 0) (by decide) (fun _ _ => rfl)
  rintro ⟨t', ht', hsym⟩
  obtain rfl : t = t' := Option.some.inj (ht.symm.trans ht')
  have h := hsym 0 (by decide)
  rw [hc0, (hint 1 (le_refl _) (by decide)).1] at h
  norm_num at h

/-- C10, amended: with all samples zero, for every `N >= 2` the interior of the assembled
matrix is symmetric, `c[i] = a[i+1]` for every `i` in `1..N-3`; the identity boundary rows
are not symmetric with their neighbours when `N >= 3` (`c[0] = 0` against `a[1] = N-1`,
`a[N-1] = 0` against `c[N-2] = N-1`), and for `N = 2` the only pair is `c[0] = a[1] = 0`. -/
theorem band_symmetry_interior (stack : Nat → Nat → ℝ) (N nu : Nat) (xi : Nat → ℝ)
    (hN : 2 ≤ N) (hxi : ∀ k, k < nu → xi k = 0) :
    ∃ t, system Real.cos Real.arctan stack N nu xi = some t ∧
      (∀ i, 1 ≤ i → i + 3 ≤ N → t.c i = t.a (i + 1)) ∧
      (3 ≤ N → t.c 0 = 0 ∧ t.a 1 = (N : ℝ) - 1 ∧ t.c (N - 2) = (N : ℝ) - 1 ∧
        t.a (N - 1) = 0) ∧
      (N = 2 → t.c 0 = 0 ∧ t.a 1 = 0) := by
  obtain ⟨t, ht, hint, ⟨-, -, hc0, -⟩, ⟨han, -, -, -⟩⟩ :=
    system_unperturbed stack N nu xi hN hxi
  have hcast : ((N - 1 : Nat) : ℝ) = (N : ℝ) - 1 := by
    rw [Nat.cast_sub (by omega : 1 ≤ N)]; simp
  refine ⟨t, ht, ?_, ?_, ?_⟩
  · intro i h1 h2
    rw [(hint i h1 (by omega)).2.2.1, (hint (i + 1) (by omega) (by omega)).1]
  · intro h3
    refine ⟨hc0, ?_, ?_, han⟩
    · rw [(hint 1 (le_refl _) (by omega)).1, hcast]
    · rw [(hint (N - 2) (by omega) (by omega)).2.2.1, hcast]
  · rintro rfl
    exact ⟨hc0, han⟩

/-- C10 amended, at a concrete input: five grid points, three samples, all zero. -/
theorem band_symmetry_interior_witness :
    ∃ t, system Real.cos Real.arctan (fun _ _ => 0) 5 3 (fun _ => 0) = some t ∧
      (∀ i, 1 ≤ i → i + 3 ≤ 5 → t.c i = t.a (i + 1)) ∧
      (3 ≤ 5 → t.c 0 = 0 ∧ t.a 1 = ((5 : Nat) : ℝ) - 1 ∧ t.c (5 - 2) = ((5 : Nat) : ℝ) - 1 ∧
        t.a (5 - 1) = 0) ∧
      (5 = 2 → t.c 0 = 0 ∧ t.a 1 = 0) :=
  band_symmetry_interior (fun _ _ => 0) 5 3 (fun _ => 0) (by decide) (fun _ _ => rfl)

end RealRun

/-! ## Assembly on the grid, for an arbitrary diffusivity array -/

section GridAssembly

/-- Consecutive points of the grid `x[i] = i * (domain_length/(N-1))` are `1/(N-1)` apart. -/
theorem grid_step (N : Nat) (x : Nat → ℝ) (hN : 2 ≤ N)
    (hxv : ∀ i, i < N → x i = (i : ℝ) * (domain_length / ((N - 1 : Nat) : ℝ))) :
    ∀ i, i + 1 < N → x (i + 1) - x i = 1 / ((N : ℝ) - 1) := by
  have hcast : ((N - 1 : Nat) : ℝ) = (N : ℝ) - 1 := by
    rw [Nat.cast_sub (by omega : 1 ≤ N)]; simp
  intro i hi
  rw [hxv (i + 1) hi, hxv i (by omega), hcast]
  simp only [domain_length]; push_cast; ring

/-- On a grid of at least two points the grid loop and the assembly loop succeed for every
forcing array `ft` and every diffusivity array `k`; consecutive grid points are `1/(N-1)`
apart. -/
theorem grid_assemble (N : Nat) (mem ft k : Nat → ℝ) (s : Bands ℝ) (hN : 2 ≤ N) :
    ∃ x t, x_points N mem = some x ∧ assemble N x ft k s = some t ∧
      (∀ i, i < N → x i = (i : ℝ) * (domain_length / ((N - 1 : Nat) : ℝ))) ∧
      (∀ i, i + 1 < N → x (i + 1) - x i = 1 / ((N : ℝ) - 1)) ∧
      Assembled N x ft k t := by
  have hr := cast_pred_ne_zero (α := ℝ) N hN
  obtain ⟨x, hx, hxv, -⟩ := x_points_spec N mem hr
  have hcast : ((N - 1 : Nat) : ℝ) = (N : ℝ) - 1 := by
    rw [Nat.cast_sub (by omega : 1 ≤ N)]; simp
  have hstep := grid_step N x hN hxv
  have hne : (1 : ℝ) / ((N : ℝ) - 1) ≠ 0 := by
    rw [← hcast]; exact one_div_ne_zero hr
  obtain ⟨t, ht, hA⟩ := assemble_spec N x ft k s hN
    (by
      intro i h1 h2
      refine ⟨?_, by rw [hstep i (by omega)]; exact hne⟩
      have := hstep (i - 1) (by omega)
      rw [show i - 1 + 1 = i by omega] at this
      rw [this]; exact hne)
  exact ⟨x, t, hx, ht, hxv, hstep, hA⟩

/-- C11: for every `N >= 3`, every diffusivity array `k` and every interior index `i` in
`1..N-2`, the assembled bands are `a[i] = 0.5*(k[i]+k[i-1])/(x[i]-x[i-1])`,
`c[i] = 0.5*(k[i+1]+k[i])/(x[i+1]-x[i])` and `b[i] = -(c[i]) - (a[i])`, so the row sums to
zero; the boundary rows `0` and `N-1` are `(a, b, c) = (0, 1, 0)`. -/
theorem interior_row_assembly (N : Nat) (mem ft k : Nat → ℝ) (s : Bands ℝ) (hN : 3 ≤ N) :
    ∃ x t, x_points N mem = some x ∧ assemble N x ft k s = some t ∧
      (∀ i, 1 ≤ i → i ≤ N - 2 →
        t.a i = 0.5 * (k i + k (i - 1)) / (x i - x (i - 1)) ∧
        t.c i = 0.5 * (k (i + 1) + k i) / (x (i + 1) - x i) ∧
        t.b i = -(t.c i) - t.a i ∧
        t.a i + t.b i + t.c i = 0) ∧
      (t.a 0 = 0 ∧ t.b 0 = 1 ∧ t.c 0 = 0) ∧
      (t.a (N - 1) = 0 ∧ t.b (N - 1) = 1 ∧ t.c (N - 1) = 0) := by
  obtain ⟨x, t, hx, ht, -, -, hint, h0, hn⟩ := grid_assemble N mem ft k s (by omega)
  refine ⟨x, t, hx, ht, ?_, ⟨h0.1, h0.2.1, h0.2.2.1⟩, ⟨hn.1, hn.2.1, hn.2.2.1⟩⟩
  intro i h1 h2
  obtain ⟨ea, eb, ec, -⟩ := hint i h1 (by omega)
  refine ⟨ea, ec, ?_, ?_⟩
  · rw [eb, ec, ea]; ring
  · rw [eb, ec, ea]; ring

/-- C11, at a concrete input: four grid points and the diffusivity `k[i] = i + 1`. -/
theorem interior_row_assembly_witness :
    ∃ x t, x_points 4 (fun _ => (0 : ℝ)) = some x ∧
      assemble 4 x (fun _ => -10) (fun i => (i : ℝ) + 1) ⟨fun _ => 0, fun _ => 0, fun _ => 0,
        fun _ => 0⟩ = some t ∧
      (∀ i, 1 ≤ i → i ≤ 4 - 2 →
        t.a i = 0.5 * (((i : Nat) : ℝ) + 1 + (((i - 1 : Nat) : ℝ) + 1)) / (x i - x (i - 1)) ∧
        t.c i = 0.5 * ((((i + 1 : Nat) : ℝ) + 1) + (((i : Nat) : ℝ) + 1)) / (x (i + 1) - x i) ∧
        t.b i = -(t.c i) - t.a i ∧
        t.a i + t.b i + t.c i = 0) ∧
      (t.a 0 = 0 ∧ t.b 0 = 1 ∧ t.c 0 = 0) ∧
      (t.a (4 - 1) = 0 ∧ t.b (4 - 1) = 1 ∧ t.c (4 - 1) = 0) :=
  interior_row_assembly 4 (fun _ => 0) (fun _ => -10) (fun i => (i : ℝ) + 1)
    ⟨fun _ => 0, fun _ => 0, fun _ => 0, fun _ => 0⟩ (by decide)

end GridAssembly

/-! ## The unperturbed problem in closed form -/

section ClosedForm

/-- C12: for every `N >= 2`, with `nu = 0` or all samples zero, the run has a solution array
and it equals the analytic solution at every node, `u[i] = 5 * x[i] * (1 - x[i])` with
`x[i] = i/(N-1)`; the returned value is `5*m*(N-1-m)/(N-1)^2` with `m = N/2` (floor). -/
theorem closed_form_unperturbed (stack : Nat → Nat → ℝ) (N nu : Nat) (xi : Nat → ℝ)
    (hN : 2 ≤ N) (hxi : nu = 0 ∨ ∀ k, k < nu → xi k = 0) :
    ∃ x u, x_points N (stack 0) = some x ∧
      solution Real.cos Real.arctan stack N nu xi = some u ∧
      (∀ i, i < N → x i = (i : ℝ) / ((N : ℝ) - 1) ∧ u i = 5 * x i * (1 - x i)) ∧
      diffusion_1d Real.cos Real.arctan stack N nu xi =
        some (5 * ((N / 2 : Nat) : ℝ) * ((N : ℝ) - 1 - ((N / 2 : Nat) : ℝ)) /
          ((N : ℝ) - 1) ^ 2) := by
  have hxi' : ∀ k, k < nu → xi k = 0 := by
    rcases hxi with h | h
    · intro k hk; omega
    · exact h
  have hr := cast_pred_ne_zero (α := ℝ) N hN
  have hcast : ((N - 1 : Nat) : ℝ) = (N : ℝ) - 1 := by
    rw [Nat.cast_sub (by omega : 1 ≤ N)]; simp
  obtain ⟨x, hx, hxv, -⟩ := x_points_spec N (stack 0) hr
  obtain ⟨u, hu, huv⟩ := solution_unperturbed Real.cos Real.arctan stack N nu xi hN
    (PI_real_ne_zero nu) hxi'
  rw [hcast] at hr
  refine ⟨x, u, hx, hu, ?_, ?_⟩
  · intro i hi
    have hxi0 : x i = (i : ℝ) / ((N : ℝ) - 1) := by
      rw [hxv i hi, hcast]; simp only [domain_length]; field_simp
    refine ⟨hxi0, ?_⟩
    rw [huv i hi, hxi0, hcast]
    field_simp
  · rw [diffusion_unperturbed stack N nu xi hN hxi', hcast]
    congr 1
    ring

/-- C12, at a concrete input: eight grid points and no sample. -/
theorem closed_form_unperturbed_witness :
    ∃ x u, x_points 8 ((fun _ _ => (0 : ℝ)) 0) = some x ∧
      solution Real.cos Real.arctan (fun _ _ => 0) 8 0 (fun _ => 1) = some u ∧
      (∀ i, i < 8 → x i = (i : ℝ) / (((8 : Nat) : ℝ) - 1) ∧ u i = 5 * x i * (1 - x i)) ∧
      diffusion_1d Real.cos Real.arctan (fun _ _ => 0) 8 0 (fun _ => 1) =
        some (5 * ((8 / 2 : Nat) : ℝ) * (((8 : Nat) : ℝ) - 1 - ((8 / 2 : Nat) : ℝ)) /
          (((8 : Nat) : ℝ) - 1) ^ 2) :=
  closed_form_unperturbed (fun _ _ => 0) 8 0 (fun _ => 1) (by decide) (Or.inl rfl)

end ClosedForm

/-! ## Positive diffusivity: the sweep never divides by zero -/

section Positive

/-- Bands with identity boundary rows whose interior rows have positive off-diagonal entries
and a main diagonal equal to minus their sum, as the assembly produces them from a positive
diffusivity. -/
def PositiveBands (N : Nat) (t : Bands ℝ) : Prop :=
  (∀ i, 1 ≤ i → i + 2 ≤ N → 0 < t.a i ∧ 0 < t.c i ∧ t.b i = -(t.c i) - t.a i) ∧
  (t.a 0 = 0 ∧ t.b 0 = 1 ∧ t.c 0 = 0 ∧ t.d 0 = 0) ∧
  (t.a (N - 1) = 0 ∧ t.b (N - 1) = 1 ∧ t.c (N - 1) = 0 ∧ t.d (N - 1) = 0)

theorem positive_of_assembled (N : Nat) (x ft k : Nat → ℝ) (t : Bands ℝ) (hN : 2 ≤ N)
    (hstep : ∀ i, i + 1 < N → x (i + 1) - x i = 1 / ((N : ℝ) - 1))
    (hk : ∀ i, i < N → 0 < k i) (hA : Assembled N x ft k t) : PositiveBands N t := by
  have hpos : (0 : ℝ) < 1 / ((N : ℝ) - 1) := by
    have : (2 : ℝ) ≤ (N : ℝ) := by exact_mod_cast hN
    have : (0 : ℝ) < (N : ℝ) - 1 := by linarith
    positivity
  obtain ⟨hint, h0, hn⟩ := hA
  refine ⟨?_, by simpa [u_0] using h0, by simpa [u_1] using hn⟩
  intro i h1 h2
  obtain ⟨m, rfl⟩ : ∃ m, i = m + 1 := ⟨i - 1, by omega⟩
  obtain ⟨ea, eb, ec, -⟩ := hint (m + 1) h1 h2
  simp only [Nat.add_sub_cancel] at ea eb ec
  have k0 := hk m (by omega)
  have k1 := hk (m + 1) (by omega)
  have k2 := hk (m + 1 + 1) (by omega)
  rw [hstep m (by omega)] at ea eb
  rw [hstep (m + 1) (by omega)] at eb ec
  refine ⟨?_, ?_, ?_⟩
  · rw [ea]; exact div_pos (by linarith) hpos
  · rw [ec]; exact div_pos (by linarith) hpos
  · rw [eb, ec, ea]; ring

/-- Under `PositiveBands` the swept super-diagonal stays in `(-1, 0]`, and on the interior
rows the elimination denominator is negative and `c'[i]` is in `(-1, 0)`. -/
theorem positive_sweep (N : Nat) (t : Bands ℝ) (hP : PositiveBands N t) :
    ∀ i, i + 2 ≤ N → -1 < cp t i ∧ cp t i ≤ 0 ∧ (1 ≤ i → pivot t i < 0 ∧ cp t i < 0) := by
  obtain ⟨hint, ⟨-, hb0, hc0, -⟩, -⟩ := hP
  intro i
  induction i with
  | zero =>
    intro _
    have : cp t 0 = 0 := by simp [cp, hc0]
    rw [this]
    exact ⟨by norm_num, le_refl _, fun h => absurd h (by decide)⟩
  | succ m ih =>
    intro hm
    obtain ⟨hlo, hhi, -⟩ := ih (by omega)
    obtain ⟨ha, hc, hb⟩ := hint (m + 1) (by omega) hm
    have hpiv : pivot t (m + 1) = -(t.c (m + 1)) - t.a (m + 1) * (1 + cp t m) := by
      simp only [pivot, Nat.add_sub_cancel, hb]; ring
    have hneg : pivot t (m + 1) < 0 := by
      rw [hpiv]
      have : 0 < t.a (m + 1) * (1 + cp t m) := mul_pos ha (by linarith)
      linarith
    have hcp : cp t (m + 1) = t.c (m + 1) / pivot t (m + 1) := rfl
    have hlt : cp t (m + 1) < 0 := by
      rw [hcp]; exact div_neg_of_pos_of_neg hc hneg
    have hgt : -1 < cp t (m + 1) := by
      rw [hcp, lt_div_iff_of_neg hneg]
      rw [hpiv]
      have : 0 < t.a (m + 1) * (1 + cp t m) := mul_pos ha (by linarith)
      linarith
    exact ⟨hgt, le_of_lt hlt, fun _ => ⟨hneg, hlt⟩⟩

/-- Under `PositiveBands` the last elimination denominator is `1`. -/
theorem positive_last_pivot (N : Nat) (t : Bands ℝ) (hP : PositiveBands N t) :
    pivot t (N - 1) = 1 := by
  obtain ⟨-, -, ha, hb, -, -⟩ := hP
  simp [pivot, ha, hb]

theorem positive_pivot_ne (N : Nat) (t : Bands ℝ) (hN : 2 ≤ N) (hP : PositiveBands N t) :
    ∀ i, 1 ≤ i → i ≤ N - 1 → pivot t i ≠ 0 := by
  intro i h1 h2
  by_cases hlast : i = N - 1
  · rw [hlast, positive_last_pivot N t hP]; exact one_ne_zero
  · exact ne_of_lt ((positive_sweep N t hP i (by omega)).2.2 h1).1

/-- C13: for every `N >= 2`, if the diffusivity is strictly positive at every node, the
assembled system has `b[0] = 1`, on every interior row `i` in `1..N-2` the elimination
denominator `b[i] - a[i]*c'[i-1]` is strictly negative and the swept coefficient `c'[i]` lies
in `(-1, 0)`, the last-row denominator is `1`, and the solve returns a result: no division by
zero is reached.  First for an arbitrary diffusivity array `k` handed to the assembly, then
for the array the routine builds from `nu` and `xi`. -/
theorem no_zero_pivot (N : Nat) (hN : 2 ≤ N) :
    (∀ (mem ft k : Nat → ℝ) (s : Bands ℝ), (∀ i, i < N → 0 < k i) →
      ∃ x t, x_points N mem = some x ∧ assemble N x ft k s = some t ∧
        t.b 0 = 1 ∧
        (∀ i, 1 ≤ i → i ≤ N - 2 →
          t.b i - t.a i * cp t (i - 1) < 0 ∧ -1 < cp t i ∧ cp t i < 0) ∧
        t.b (N - 1) - t.a (N - 1) * cp t (N - 2) = 1 ∧
        ∃ u, tdma N t = some u) ∧
    (∀ (stack : Nat → Nat → ℝ) (nu : Nat) (xi : Nat → ℝ),
      ∃ x k t, x_points N (stack 0) = some x ∧
        k_coefficients Real.cos Real.arctan N nu xi x (stack 2) = some k ∧
        system Real.cos Real.arctan stack N nu xi = some t ∧
        ((∀ i, i < N → 0 < k i) →
          t.b 0 = 1 ∧
          (∀ i, 1 ≤ i → i ≤ N - 2 →
            t.b i - t.a i * cp t (i - 1) < 0 ∧ -1 < cp t i ∧ cp t i < 0) ∧
          t.b (N - 1) - t.a (N - 1) * cp t (N - 2) = 1 ∧
          ∃ u, solution Real.cos Real.arctan stack N nu xi = some u)) := by
  have main : ∀ (x ft k : Nat → ℝ) (t : Bands ℝ),
      (∀ i, i + 1 < N → x (i + 1) - x i = 1 / ((N : ℝ) - 1)) → Assembled N x ft k t →
      (∀ i, i < N → 0 < k i) →
      t.b 0 = 1 ∧
      (∀ i, 1 ≤ i → i ≤ N - 2 →
        t.b i - t.a i * cp t (i - 1) < 0 ∧ -1 < cp t i ∧ cp t i < 0) ∧
      t.b (N - 1) - t.a (N - 1) * cp t (N - 2) = 1 ∧
      ∃ u, tdma N t = some u := by
    intro x ft k t hstep hA hk
    have hP := positive_of_assembled N x ft k t hN hstep hk hA
    have hb0 : t.b 0 = 1 := hP.2.1.2.1
    obtain ⟨u, hu, -⟩ := tdma_spec N t hN (by rw [hb0]; exact one_ne_zero)
      (positive_pivot_ne N t hN hP)
    refine ⟨hb0, ?_, ?_, u, hu⟩
    · intro i h1 h2
      obtain ⟨hgt, -, h⟩ := positive_sweep N t hP i (by omega)
      exact ⟨(h h1).1, hgt, (h h1).2⟩
    · have := positive_last_pivot N t hP
      rwa [pivot, show N - 1 - 1 = N - 2 by omega] at this
  refine ⟨?_, ?_⟩
  · intro mem ft k s hk
    obtain ⟨x, t, hx, ht, -, hstep, hA⟩ := grid_assemble N mem ft k s hN
    exact ⟨x, t, hx, ht, main x ft k t hstep hA hk⟩
  · intro stack nu xi
    obtain ⟨x, k, t, hx, hkc, ht, hxv, -, hA⟩ :=
      system_spec Real.cos Real.arctan stack N nu xi hN (PI_real_ne_zero nu)
    refine ⟨x, k, t, hx, hkc, ht, fun hk => ?_⟩
    obtain ⟨h1, h2, h3, u, hu⟩ := main x _ k t (grid_step N x hN hxv) hA hk
    exact ⟨h1, h2, h3, u, by simp [solution, ht, hu]⟩

/-- C13, at a concrete input: six grid points and the diffusivity `k[i] = i + 1`. -/
theorem no_zero_pivot_witness :
    ∃ x t, x_points 6 (fun _ => (0 : ℝ)) = some x ∧
      assemble 6 x (fun _ => -10) (fun i => (i : ℝ) + 1) ⟨fun _ => 0, fun _ => 0, fun _ => 0,
        fun _ => 0⟩ = some t ∧
      t.b 0 = 1 ∧
      (∀ i, 1 ≤ i → i ≤ 6 - 2 →
        t.b i - t.a i * cp t (i - 1) < 0 ∧ -1 < cp t i ∧ cp t i < 0) ∧
      t.b (6 - 1) - t.a (6 - 1) * cp t (6 - 2) = 1 ∧
      ∃ u, tdma 6 t = some u :=
  (no_zero_pivot 6 (by decide)).1 (fun _ => 0) (fun _ => -10) (fun i => (i : ℝ) + 1)
    ⟨fun _ => 0, fun _ => 0, fun _ => 0, fun _ => 0⟩ (fun i _ => by positivity)

/-- Under `PositiveBands` with a negative right-hand side on the interior rows, the swept
right-hand side is non-negative, and positive on the interior rows. -/
theorem positive_dsweep (N : Nat) (t : Bands ℝ) (hP : PositiveBands N t)
    (hd : ∀ i, 1 ≤ i → i + 2 ≤ N → t.d i < 0) :
    ∀ i, i + 2 ≤ N → 0 ≤ dp t i ∧ (1 ≤ i → 0 < dp t i) := by
  intro i
  induction i with
  | zero =>
    intro _
    obtain ⟨-, ⟨-, hb0, -, hd0⟩, -⟩ := hP
    have : dp t 0 = 0 := by simp [dp, hd0]
    rw [this]
    exact ⟨le_refl _, fun h => absurd h (by decide)⟩
  | succ m ih =>
    intro hm
    obtain ⟨hnn, -⟩ := ih (by omega)
    obtain ⟨ha, -, -⟩ := hP.1 (m + 1) (by omega) hm
    have hneg := ((positive_sweep N t hP (m + 1) hm).2.2 (by omega)).1
    have hdp : dp t (m + 1) = (t.d (m + 1) - t.a (m + 1) * dp t m) / pivot t (m + 1) := rfl
    have hnum : t.d (m + 1) - t.a (m + 1) * dp t m < 0 := by
      have := hd (m + 1) (by omega) hm
      have : 0 ≤ t.a (m + 1) * dp t m := mul_nonneg (le_of_lt ha) hnn
      linarith
    have hpos : 0 < dp t (m + 1) := by
      rw [hdp]; exact div_pos_of_neg_of_neg hnum hneg
    exact ⟨le_of_lt hpos, fun _ => hpos⟩

/-- Under `PositiveBands` with a negative right-hand side on the interior rows, the solve
returns an array that is zero at both ends and positive at every interior node. -/
theorem positive_tdma (N : Nat) (t : Bands ℝ) (hN : 2 ≤ N) (hP : PositiveBands N t)
    (hd : ∀ i, 1 ≤ i → i + 2 ≤ N → t.d i < 0) :
    ∃ u, tdma N t = some u ∧ u 0 = 0 ∧ u (N - 1) = 0 ∧
      ∀ i, 1 ≤ i → i ≤ N - 2 → 0 < u i := by
  obtain ⟨u, hu, hlast, hrec, -⟩ := tdma_spec N t hN
    (by rw [hP.2.1.2.1]; exact one_ne_zero) (positive_pivot_ne N t hN hP)
  have hn0 : u (N - 1) = 0 := by
    obtain ⟨m, hm⟩ : ∃ m, N - 1 = m + 1 := ⟨N - 2, by omega⟩
    obtain ⟨-, -, ha, -, -, hdn⟩ := hP
    rw [hlast, hm, dp, ← hm, ha, hdn]
    simp
  have key : ∀ k j, j + k = N - 1 → 0 ≤ u j ∧ (1 ≤ j → j ≤ N - 2 → 0 < u j) := by
    intro k
    induction k with
    | zero =>
      intro j hj
      obtain rfl : j = N - 1 := by omega
      rw [hn0]
      exact ⟨le_refl _, fun h1 h2 => by omega⟩
    | succ k ih =>
      intro j hj
      obtain ⟨hnext, -⟩ := ih (j + 1) (by omega)
      obtain ⟨-, hcle, -⟩ := positive_sweep N t hP j (by omega)
      obtain ⟨hdnn, hdpos⟩ := positive_dsweep N t hP hd j (by omega)
      have hprod : 0 ≤ -(cp t j) * u (j + 1) := mul_nonneg (by linarith) hnext
      rw [hrec j (by omega)]
      refine ⟨by linarith, fun h1 _ => ?_⟩
      have := hdpos h1
      linarith
  refine ⟨u, hu, ?_, hn0, fun i h1 h2 => (key (N - 1 - i) i (by omega)).2 h1 h2⟩
  rw [hrec 0 (by omega)]
  obtain ⟨-, ⟨-, -, hc0, hd0⟩, -⟩ := hP
  simp [cp, dp, hc0, hd0]

/-- C16: for every `N >= 3`, if the diffusivity is strictly positive at every node, then
with the forcing `-10` and the zero boundary values the solution array is strictly positive
at every interior node `1..N-2`, and so is its entry of index `N/2`, the value the routine
returns.  First for an arbitrary diffusivity array `k` handed to the assembly, then for the
array the routine builds from `nu` and `xi`. -/
theorem solution_positive (N : Nat) (hN : 3 ≤ N) :
    (∀ (mem memf k : Nat → ℝ) (s : Bands ℝ), (∀ i, i < N → 0 < k i) →
      ∃ x t u, x_points N mem = some x ∧ assemble N x (f_terms N memf) k s = some t ∧
        tdma N t = some u ∧
        (∀ i, i < N → f_terms N memf i = -10) ∧
        u 0 = 0 ∧ u (N - 1) = 0 ∧
        (∀ i, 1 ≤ i → i ≤ N - 2 → 0 < u i) ∧
        0 < u (N / 2)) ∧
    (∀ (stack : Nat → Nat → ℝ) (nu : Nat) (xi : Nat → ℝ),
      ∃ x k, x_points N (stack 0) = some x ∧
        k_coefficients Real.cos Real.arctan N nu xi x (stack 2) = some k ∧
        ((∀ i, i < N → 0 < k i) →
          ∃ u, solution Real.cos Real.arctan stack N nu xi = some u ∧
            u 0 = 0 ∧ u (N - 1) = 0 ∧
            (∀ i, 1 ≤ i → i ≤ N - 2 → 0 < u i) ∧
            diffusion_1d Real.cos Real.arctan stack N nu xi = some (u (N / 2)) ∧
            0 < u (N / 2))) := by
  have main : ∀ (x memf k : Nat → ℝ) (t : Bands ℝ),
      (∀ i, i + 1 < N → x (i + 1) - x i = 1 / ((N : ℝ) - 1)) →
      Assembled N x (f_terms N memf) k t → (∀ i, i < N → 0 < k i) →
      ∃ u, tdma N t = some u ∧ u 0 = 0 ∧ u (N - 1) = 0 ∧
        (∀ i, 1 ≤ i → i ≤ N - 2 → 0 < u i) ∧ 0 < u (N / 2) := by
    intro x memf k t hstep hA hk
    have hP := positive_of_assembled N x (f_terms N memf) k t (by omega) hstep hk hA
    have hd : ∀ i, 1 ≤ i → i + 2 ≤ N → t.d i < 0 := by
      intro i h1 h2
      obtain ⟨m, rfl⟩ : ∃ m, i = m + 1 := ⟨i - 1, by omega⟩
      obtain ⟨-, -, -, ed⟩ := hA.1 (m + 1) h1 h2
      simp only [Nat.add_sub_cancel] at ed
      have hpos : (0 : ℝ) < 1 / ((N : ℝ) - 1) := by
        have : (3 : ℝ) ≤ (N : ℝ) := by exact_mod_cast hN
        have : (0 : ℝ) < (N : ℝ) - 1 := by linarith
        positivity
      have e1 := hstep m (by omega)
      have e2 := hstep (m + 1) (by omega)
      have e3 : x (m + 1 + 1) - x m = 2 * (1 / ((N : ℝ) - 1)) := by linarith
      have hfm : f_terms N memf (m + 1) = -10 := (f_terms_spec N memf).1 (m + 1) (by omega)
      rw [ed, hfm, e3]
      norm_num
      linarith
    obtain ⟨u, hu, hu0, hun, hint⟩ := positive_tdma N t (by omega) hP hd
    exact ⟨u, hu, hu0, hun, hint, hint (N / 2) (by omega) (by omega)⟩
  refine ⟨?_, ?_⟩
  · intro mem memf k s hk
    obtain ⟨x, t, hx, ht, -, hstep, hA⟩ :=
      grid_assemble N mem (f_terms N memf) k s (by omega)
    obtain ⟨u, hu, hu0, hun, hint, hmid⟩ := main x memf k t hstep hA hk
    exact ⟨x, t, u, hx, ht, hu, fun i hi => (f_terms_spec N memf).1 i hi, hu0, hun, hint,
      hmid⟩
  · intro stack nu xi
    obtain ⟨x, k, t, hx, hkc, ht, hxv, -, hA⟩ :=
      system_spec Real.cos Real.arctan stack N nu xi (by omega) (PI_real_ne_zero nu)
    refine ⟨x, k, hx, hkc, fun hk => ?_⟩
    obtain ⟨u, hu, hu0, hun, hint, hmid⟩ :=
      main x (stack 1) k t (grid_step N x (by omega) hxv) hA hk
    have hsol : solution Real.cos Real.arctan stack N nu xi = some u := by
      simp [solution, ht, hu]
    exact ⟨u, hsol, hu0, hun, hint, by simp [diffusion_1d, hsol], hmid⟩

/-- C16, at a concrete input: seven grid points and the diffusivity `k[i] = i + 1`. -/
theorem solution_positive_witness :
    ∃ x t u, x_points 7 (fun _ => (0 : ℝ)) = some x ∧
      assemble 7 x (f_terms 7 (fun _ => 0)) (fun i => (i : ℝ) + 1) ⟨fun _ => 0, fun _ => 0,
        fun _ => 0, fun _ => 0⟩ = some t ∧
      tdma 7 t = some u ∧
      (∀ i, i < 7 → f_terms 7 (fun _ => (0 : ℝ)) i = -10) ∧
      u 0 = 0 ∧ u (7 - 1) = 0 ∧
      (∀ i, 1 ≤ i → i ≤ 7 - 2 → 0 < u i) ∧
      0 < u (7 / 2) :=
  (solution_positive 7 (by decide)).1 (fun _ => 0) (fun _ => 0) (fun i => (i : ℝ) + 1)
    ⟨fun _ => 0, fun _ => 0, fun _ => 0, fun _ => 0⟩ (fun i _ => by positivity)

end Positive

/-! ## The diffusivity field over the real numbers -/

section Diffusivity

/-- The cosine of line 61 takes the same value at `1 - y` and at `y`. -/
theorem cos_mirror (j : Nat) (y : ℝ) :
    Real.cos (2 * Real.pi * ((j : ℝ) + 1) * (1 - y)) =
      Real.cos (2 * Real.pi * ((j : ℝ) + 1) * y) := by
  have h := Real.cos_nat_mul_two_pi_sub (2 * Real.pi * ((j : ℝ) + 1) * y) (j + 1)
  rw [← h]
  congr 1
  push_cast
  ring

theorem k_sum_mirror (nu : Nat) (xi : Nat → ℝ) (y : ℝ) :
    k_sum Real.cos Real.arctan nu xi (1 - y) = k_sum Real.cos Real.arctan nu xi y := by
  unfold k_sum
  congr 1
  refine Finset.sum_congr rfl (fun j _ => ?_)
  rw [PI_real, cos_mirror]

/-- The partial sums of `1/(j+1)^2` stay strictly below `pi^2/6`. -/
theorem basel_sum_lt (nu : Nat) :
    ∑ j in Finset.range nu, 1 / (((j : ℝ) + 1) ^ 2) < Real.pi ^ 2 / 6 := by
  have hle : ∑ n in Finset.range (nu + 2), (1 : ℝ) / ((n : ℝ) ^ 2) ≤ Real.pi ^ 2 / 6 :=
    sum_le_hasSum _ (fun n _ => by positivity) hasSum_zeta_two
  rw [Finset.sum_range_succ, Finset.sum_range_succ'] at hle
  have hlast : (0 : ℝ) < 1 / (((nu + 1 : Nat) : ℝ) ^ 2) := by positivity
  have hzero : (1 : ℝ) / (((0 : Nat) : ℝ) ^ 2) = 0 := by simp
  rw [hzero, add_zero] at hle
  have heq : ∑ j in Finset.range nu, (1 : ℝ) / (((j + 1 : Nat) : ℝ) ^ 2) =
      ∑ j in Finset.range nu, 1 / (((j : ℝ) + 1) ^ 2) :=
    Finset.sum_congr rfl (fun j _ => by push_cast; rfl)
  rw [heq] at hle
  linarith

/-- With samples in `[-1, 1]` the cosine expansion moves the diffusivity by less than
`1/6`. -/
theorem k_sum_bound (nu : Nat) (xi : Nat → ℝ) (y : ℝ) (hxi : ∀ j, j < nu → |xi j| ≤ 1) :
    |k_sum Real.cos Real.arctan nu xi y - 1| < 1 / 6 := by
  have hpi : (0 : ℝ) < Real.pi := Real.pi_pos
  have hterm : ∀ j, j ∈ Finset.range nu →
      |sigma * (1 / (((j : ℝ) + 1) * ((j : ℝ) + 1) * PI Real.arctan * PI Real.arctan) *
        Real.cos (2 * PI Real.arctan * ((j : ℝ) + 1) * y) * xi j)| ≤
      1 / Real.pi ^ 2 * (1 / (((j : ℝ) + 1) ^ 2)) := by
    intro j hj
    have hj1 : (0 : ℝ) < (j : ℝ) + 1 := by positivity
    have hc := Real.abs_cos_le_one (2 * Real.pi * ((j : ℝ) + 1) * y)
    have hx := hxi j (Finset.mem_range.mp hj)
    rw [PI_real]
    simp only [sigma, one_mul, abs_mul]
    have hw : |1 / (((j : ℝ) + 1) * ((j : ℝ) + 1) * Real.pi * Real.pi)| =
        1 / Real.pi ^ 2 * (1 / (((j : ℝ) + 1) ^ 2)) := by
      rw [abs_of_pos (by positivity)]
      field_simp
      ring
    rw [hw]
    have hw0 : (0 : ℝ) ≤ 1 / Real.pi ^ 2 * (1 / (((j : ℝ) + 1) ^ 2)) := by positivity
    calc 1 / Real.pi ^ 2 * (1 / (((j : ℝ) + 1) ^ 2)) *
          |Real.cos (2 * Real.pi * ((j : ℝ) + 1) * y)| * |xi j|
        ≤ 1 / Real.pi ^ 2 * (1 / (((j : ℝ) + 1) ^ 2)) * 1 * 1 := by
          apply mul_le_mul (mul_le_mul_of_nonneg_left hc hw0) hx (abs_nonneg _)
          positivity
      _ = 1 / Real.pi ^ 2 * (1 / (((j : ℝ) + 1) ^ 2)) := by ring
  have hsum : k_sum Real.cos Real.arctan nu xi y - 1 = ∑ j in Finset.range nu,
      sigma * (1 / (((j : ℝ) + 1) * ((j : ℝ) + 1) * PI Real.arctan * PI Real.arctan) *
        Real.cos (2 * PI Real.arctan * ((j : ℝ) + 1) * y) * xi j) := by
    unfold k_sum; ring
  rw [hsum]
  calc |∑ j in Finset.range nu,
        sigma * (1 / (((j : ℝ) + 1) * ((j : ℝ) + 1) * PI Real.arctan * PI Real.arctan) *
          Real.cos (2 * PI Real.arctan * ((j : ℝ) + 1) * y) * xi j)|
      ≤ ∑ j in Finset.range nu,
        |sigma * (1 / (((j : ℝ) + 1) * ((j : ℝ) + 1) * PI Real.arctan * PI Real.arctan) *
          Real.cos (2 * PI Real.arctan * ((j : ℝ) + 1) * y) * xi j)| :=
        Finset.abs_sum_le_sum_abs _ _
    _ ≤ ∑ j in Finset.range nu, 1 / Real.pi ^ 2 * (1 / (((j : ℝ) + 1) ^ 2)) :=
        Finset.sum_le_sum hterm
    _ = 1 / Real.pi ^ 2 * ∑ j in Finset.range nu, 1 / (((j : ℝ) + 1) ^ 2) := by
        rw [Finset.mul_sum]
    _ < 1 / Real.pi ^ 2 * (Real.pi ^ 2 / 6) :=
        mul_lt_mul_of_pos_left (basel_sum_lt nu) (by positivity)
    _ = 1 / 6 := by field_simp

/-- C14: for every `N >= 2`, every `nu` and every sample array with `|xi[k]| <= 1`, the
diffusivity the routine builds is
`k[i] = 1 + sum over k < nu of sigma * cos(2*pi*(k+1)*x[i]) * xi[k] / ((k+1)^2 * pi^2)` with
`sigma = 1`, and `|k[i] - 1| < 1/6` at every node, hence `5/6 < k[i] < 7/6` and `k[i] > 0`. -/
theorem diffusivity_bounds (stack : Nat → Nat → ℝ) (N nu : Nat) (xi : Nat → ℝ) (hN : 2 ≤ N)
    (hxi : ∀ j, j < nu → |xi j| ≤ 1) :
    ∃ x k, x_points N (stack 0) = some x ∧
      k_coefficients Real.cos Real.arctan N nu xi x (stack 2) = some k ∧
      (sigma : ℝ) = 1 ∧
      ∀ i, i < N →
        k i = 1 + ∑ j in Finset.range nu,
          sigma * Real.cos (2 * Real.pi * ((j : ℝ) + 1) * x i) * xi j /
            (((j : ℝ) + 1) ^ 2 * Real.pi ^ 2) ∧
        |k i - 1| < 1 / 6 ∧ 5 / 6 < k i ∧ k i < 7 / 6 ∧ 0 < k i := by
  obtain ⟨x, k, -, hx, hk, -, -, hkv, -⟩ :=
    system_spec Real.cos Real.arctan stack N nu xi hN (PI_real_ne_zero nu)
  refine ⟨x, k, hx, hk, rfl, fun i hi => ?_⟩
  have hb := k_sum_bound nu xi (x i) hxi
  rw [← hkv i hi] at hb
  have hb' := abs_lt.mp hb
  refine ⟨?_, hb, by linarith [hb'.1], by linarith [hb'.2], by linarith [hb'.1]⟩
  rw [hkv i hi]
  unfold k_sum
  congr 1
  refine Finset.sum_congr rfl (fun j _ => ?_)
  rw [PI_real]
  have hj1 : ((j : ℝ) + 1) ≠ 0 := Nat.cast_add_one_ne_zero j
  have hpi := Real.pi_ne_zero
  field_simp
  ring

/-- C14, at a concrete input: ten grid points and ten samples equal to `1`. -/
theorem diffusivity_bounds_witness :
    ∃ x k, x_points 10 ((fun _ _ => (0 : ℝ)) 0) = some x ∧
      k_coefficients Real.cos Real.arctan 10 10 (fun _ => 1) x ((fun _ _ => (0 : ℝ)) 2) =
        some k ∧
      (sigma : ℝ) = 1 ∧
      ∀ i, i < 10 →
        k i = 1 + ∑ j in Finset.range 10,
          sigma * Real.cos (2 * Real.pi * ((j : ℝ) + 1) * x i) * (fun _ => (1 : ℝ)) j /
            (((j : ℝ) + 1) ^ 2 * Real.pi ^ 2) ∧
        |k i - 1| < 1 / 6 ∧ 5 / 6 < k i ∧ k i < 7 / 6 ∧ 0 < k i :=
  diffusivity_bounds (fun _ _ => 0) 10 10 (fun _ => 1) (by decide) (fun _ _ => by simp)

/-- C15: for every `N >= 2`, every `nu` and every sample array `xi`, the grid satisfies
`x[N-1-i] = 1 - x[i]`, the cosine satisfies `cos(2*pi*(k+1)*(1-y)) = cos(2*pi*(k+1)*y)` for
every integer `k >= 0`, and the diffusivity the routine builds is mirror-symmetric:
`k[i] = k[N-1-i]` at every node. -/
theorem diffusivity_mirror (stack : Nat → Nat → ℝ) (N nu : Nat) (xi : Nat → ℝ) (hN : 2 ≤ N) :
    ∃ x k, x_points N (stack 0) = some x ∧
      k_coefficients Real.cos Real.arctan N nu xi x (stack 2) = some k ∧
      (∀ i, i < N → x (N - 1 - i) = 1 - x i) ∧
      (∀ (j : Nat) (y : ℝ), Real.cos (2 * Real.pi * ((j : ℝ) + 1) * (1 - y)) =
        Real.cos (2 * Real.pi * ((j : ℝ) + 1) * y)) ∧
      ∀ i, i < N → k i = k (N - 1 - i) := by
  obtain ⟨x, k, -, hx, hk, -, hxv, hkv, -⟩ :=
    system_spec Real.cos Real.arctan stack N nu xi hN (PI_real_ne_zero nu)
  have hr := cast_pred_ne_zero (α := ℝ) N hN
  have hmir : ∀ i, i < N → x (N - 1 - i) = 1 - x i := by
    intro i hi
    rw [hxv (N - 1 - i) (by omega), hxv i hi, Nat.cast_sub (by omega : i ≤ N - 1)]
    generalize ((N - 1 : Nat) : ℝ) = r at hr ⊢
    simp only [domain_length]
    field_simp
  refine ⟨x, k, hx, hk, hmir, cos_mirror, fun i hi => ?_⟩
  rw [hkv i hi, hkv (N - 1 - i) (by omega), hmir i hi, k_sum_mirror]

/-- C15, at a concrete input: nine grid points and the samples `xi[k] = k - 3`. -/
theorem diffusivity_mirror_witness :
    ∃ x k, x_points 9 ((fun _ _ => (0 : ℝ)) 0) = some x ∧
      k_coefficients Real.cos Real.arctan 9 5 (fun j => (j : ℝ) - 3) x
        ((fun _ _ => (0 : ℝ)) 2) = some k ∧
      (∀ i, i < 9 → x (9 - 1 - i) = 1 - x i) ∧
      (∀ (j : Nat) (y : ℝ), Real.cos (2 * Real.pi * ((j : ℝ) + 1) * (1 - y)) =
        Real.cos (2 * Real.pi * ((j : ℝ) + 1) * y)) ∧
      ∀ i, i < 9 → k i = k (9 - 1 - i) :=
  diffusivity_mirror (fun _ _ => 0) 9 5 (fun j => (j : ℝ) - 3) (by decide)

end Diffusivity

end Diffusion
